import Mathlib

/-!
Shallow embedding of the sensor image-formation core of
`star-tracker-image-sim` (`src/STLib/sensor.py`), together with theorems
settling the specification claims about it.

Real-valued quantities are modelled as rationals.  Randomness is modelled by
an injectable generator: a raw stream of natural numbers together with a
draw counter; `np.random.poisson` becomes a draw from that stream after the
source's validity check (a negative mean raises `ValueError`).  A Python
`raise` propagating out of `accumulate` is modelled by returning the error
together with the (possibly partially updated) sensor state, since the
source mutates `self.pixels` in place.
-/

namespace STLib

/-- Pixel buffer of shape `(height_px, width_px)`, electron counts. -/
abbrev Mat (H W : ℕ) := Fin H → Fin W → ℚ

/-- Error raised by the embedded numerics (`np.random.poisson` on a negative
mean raises `ValueError("lam < 0")`). -/
inductive SimError
  | negativeMean
deriving DecidableEq, Repr

/-- Injectable pseudo-random generator: the raw draw stream and the index of
the next draw. -/
structure RNG where
  gen : ℕ → ℕ
  idx : ℕ

/-- Row-major matrix of raw draws starting at the generator's current index,
one draw per pixel: pixel `(i, j)` takes draw `idx + i * W + j`. -/
def noiseMat {H W : ℕ} (r : RNG) : Fin H → Fin W → ℕ :=
  fun i j => r.gen (r.idx + i.val * W + j.val)

/-- `np.random.poisson(lam_matrix)`: validates that no mean is negative and
then draws one count per pixel in row-major order, advancing the counter by
`H * W`.  On a negative mean it raises before anything is written. -/
def poissonMat {H W : ℕ} (lam : Fin H → Fin W → ℚ) (r : RNG) :
    Except SimError ((Fin H → Fin W → ℕ) × RNG) :=
  if ∃ i j, lam i j < 0 then .error .negativeMean
  else .ok (noiseMat r, ⟨r.gen, r.idx + H * W⟩)

/-- `np.random.poisson(lam_list)` over a flat list of means (one per window
pixel of a PSF footprint), consuming `lams.length` draws. -/
def poissonList (lams : List ℚ) (r : RNG) : Except SimError (List ℕ × RNG) :=
  if lams.any (fun q => q < 0) then .error .negativeMean
  else .ok ((List.range lams.length).map (fun t => r.gen (r.idx + t)),
            ⟨r.gen, r.idx + lams.length⟩)

/-- The set `bloom ⊆ {'+x','-x','+y','-y'}` of directions receiving
overflowing charge. -/
structure BloomDirs where
  plusX : Bool
  minusX : Bool
  plusY : Bool
  minusY : Bool
deriving DecidableEq, Repr

/-- `len(self.bloom)`. -/
def BloomDirs.count (B : BloomDirs) : ℕ :=
  (if B.plusX then 1 else 0) + (if B.minusX then 1 else 0) +
  (if B.plusY then 1 else 0) + (if B.minusY then 1 else 0)

/-- `excess = np.maximum(0, pixels - full_well)`, element-wise. -/
def excess {H W : ℕ} (fw : ℚ) (p : Mat H W) : Mat H W :=
  fun i j => max 0 (p i j - fw)

/-- Zero-fill boundary lookup used by `convolve2d(..., boundary='fill',
fillvalue=0)`: entries outside the pixel grid read as `0`. -/
def getE {H W : ℕ} (m : Mat H W) (y x : ℤ) : ℚ :=
  if hy : 0 ≤ y ∧ y < (H : ℤ) then
    if hx : 0 ≤ x ∧ x < (W : ℤ) then m ⟨y.toNat, by omega⟩ ⟨x.toNat, by omega⟩
    else 0
  else 0

/-- `convolve2d(excess, conv_filter, mode='same', boundary='fill',
fillvalue=0)` with the 3×3 kernel whose `'-x'`, `'+x'`, `'-y'`, `'+y'`
entries equal `1 / len(bloom)`.  True convolution flips the kernel, so the
output pixel `(i, j)` receives, for an active `'+x'`, the excess of pixel
`(i, j-1)`, and so on. -/
def bloomConv {H W : ℕ} (B : BloomDirs) (e : Mat H W) : Mat H W :=
  fun i j =>
    (1 / (B.count : ℚ)) *
      ((if B.plusX then getE e (i.val : ℤ) ((j.val : ℤ) - 1) else 0) +
       (if B.minusX then getE e (i.val : ℤ) ((j.val : ℤ) + 1) else 0) +
       (if B.plusY then getE e ((i.val : ℤ) - 1) (j.val : ℤ) else 0) +
       (if B.minusY then getE e ((i.val : ℤ) + 1) (j.val : ℤ) else 0))

/-- One iteration of the bloom `while` body:
`pixels -= excess; pixels += np.floor(convolve2d(excess, ...))`. -/
def bloomStep {H W : ℕ} (B : BloomDirs) (fw : ℚ) (p : Mat H W) : Mat H W :=
  fun i j => p i j - excess fw p i j + ((⌊bloomConv B (excess fw p) i j⌋ : ℤ) : ℚ)

/-- The bloom `while True` loop with explicit fuel: each round checks
`any(excess > 0)` and either stops or runs one `bloomStep`. -/
def bloomLoop {H W : ℕ} (B : BloomDirs) (fw : ℚ) : ℕ → Mat H W → Mat H W
  | 0, p => p
  | n + 1, p =>
    if ∃ i j, 0 < excess fw p i j then bloomLoop B fw n (bloomStep B fw p) else p

/-- Per-axis potential used to bound the bloom loop's iteration count: a
strictly concave (or, for a one-sided axis, linear) weight that every move of
excess charge in an active direction decreases on average. -/
def gAx (plus minus : Bool) (n : ℕ) (c : ℤ) : ℚ :=
  match plus, minus with
  | true, true => ((c : ℚ) + 1) * ((n : ℚ) - (c : ℚ))
  | true, false => (n : ℚ) - (c : ℚ)
  | false, true => (c : ℚ) + 1
  | false, false => 0

/-- Combined potential weight of the (possibly off-grid) cell `(y, x)`. -/
def gPot (B : BloomDirs) (H W : ℕ) (y x : ℤ) : ℚ :=
  gAx B.plusX B.minusX W x + gAx B.plusY B.minusY H y

/-- Total excess charge. -/
def totE {H W : ℕ} (e : Mat H W) : ℚ := ∑ i, ∑ j, e i j

/-- Weighted excess charge (the termination potential). -/
def potE {H W : ℕ} (B : BloomDirs) (e : Mat H W) : ℚ :=
  ∑ i, ∑ j, e i j * gPot B H W (i.val : ℤ) (j.val : ℤ)

/-- Coarse upper bound for `gPot` over the grid. -/
def gBound (H W : ℕ) : ℚ := ((W : ℚ) + 1) ^ 2 + ((H : ℚ) + 1) ^ 2

/-- Translation embedding of the integer plane, used to re-index charge
transported one cell along a bloom direction. -/
def shiftEmb (dy dx : ℤ) : ℤ × ℤ ↪ ℤ × ℤ :=
  ⟨fun q => (q.1 - dy, q.2 - dx), by
    intro a b h
    simp only [Prod.mk.injEq] at h
    exact Prod.ext (by omega) (by omega)⟩

/-- Fuel sufficient for the bloom loop to reach its fixed point (proved in
`bloomLoop_fuel_reaches_fixpoint` below); with this fuel `bloomLoop` computes
exactly what the source's unbounded `while True` loop computes. -/
def bloomFuel {H W : ℕ} (B : BloomDirs) (fw : ℚ) (p : Mat H W) : ℕ :=
  (⌈totE (excess fw p) * gBound H W⌉).toNat + 2

/-- The lens collaborator, consumed as opaque values: collecting area, the
PSF density `ψ(x, y)`, its support half-widths, and the quadrature step
bound. -/
structure Lens where
  area : ℚ
  psf : ℚ → ℚ → ℚ
  psf_bounds_x : ℚ
  psf_bounds_y : ℚ
  psf_resolution : ℚ

/-- The sensor state (`Sensor.__init__` fields that the pipeline reads,
after unit stripping; `width_px`/`height_px` are the shape parameters). -/
structure Sensor (H W : ℕ) where
  px_len_x : ℚ
  px_len_y : ℚ
  px_pitch_x : ℚ
  px_pitch_y : ℚ
  quantum_eff : ℚ
  dark_current : ℚ → ℚ
  hot_pixels : Mat H W
  read_noise : ℚ
  gain : ℚ
  bias : Fin H → Fin W → ℤ
  full_well : ℚ
  adc_limit : ℤ
  bloom : BloomDirs
  pixels : Mat H W

/-- `self.width = (width_px + 1) * px_pitch_x - px_len_x` (micrometers). -/
def sensorWidth {H W : ℕ} (s : Sensor H W) : ℚ :=
  ((W : ℚ) + 1) * s.px_pitch_x - s.px_len_x

/-- `self.height = (height_px + 1) * px_pitch_y - px_len_y`. -/
def sensorHeight {H W : ℕ} (s : Sensor H W) : ℚ :=
  ((H : ℚ) + 1) * s.px_pitch_y - s.px_len_y

/-- `Sensor._applyBloom`: clip to the full-well capacity when `bloom` is
empty, otherwise run the redistribution loop. -/
def applyBloomSensor {H W : ℕ} (s : Sensor H W) : Sensor H W :=
  if s.bloom.count = 0 then
    { s with pixels := fun i j => min (s.pixels i j) s.full_well }
  else
    { s with pixels :=
        bloomLoop s.bloom s.full_well (bloomFuel s.bloom s.full_well s.pixels) s.pixels }

/-- `int(np.round(q))` with NumPy's round-half-to-even tie-breaking. -/
def roundHE (q : ℚ) : ℤ :=
  if Int.fract q = 1 / 2 then (if Even ⌊q⌋ then ⌊q⌋ else ⌊q⌋ + 1) else round q

/-- Per-side quadrature sample count of `Sensor._applyPSF`:
`max(2, int(np.ceil(px_len / psf_resolution)))`. -/
def nSamp (len res : ℚ) : ℕ := (max 2 ⌈len / res⌉).toNat

/-- `np.trapezoid(y, dx=d)` over `n` uniformly spaced samples: the composite
trapezoidal rule `d * Σ_{k<n-1} (y_k + y_{k+1}) / 2`. -/
def trap (f : ℕ → ℚ) (n : ℕ) (d : ℚ) : ℚ :=
  d * (∑ k ∈ Finset.range (n - 1), (f k + f (k + 1))) / 2

/-- The PSF footprint of one source in `Sensor._applyPSF`: the window of
pixels around the centre pixel, each paired with its mean electron count
`dose * ∬ ψ` (trapezoidal quadrature over the pixel's active area), listed
row-major exactly as `np.meshgrid(...).ravel()` orders the draws. -/
def srcCounts {H W : ℕ} (lens : Lens) (s : Sensor H W) (x y dose : ℚ) :
    List ((ℤ × ℤ) × ℚ) :=
  let nx := nSamp s.px_len_x lens.psf_resolution
  let ny := nSamp s.px_len_y lens.psf_resolution
  let dx := s.px_len_x / ((nx : ℚ) - 1)
  let dy := s.px_len_y / ((ny : ℚ) - 1)
  let bx : ℤ := ⌈lens.psf_bounds_x / s.px_len_x⌉
  let bY : ℤ := ⌈lens.psf_bounds_y / s.px_len_y⌉
  let xi : ℤ := roundHE (x / (sensorWidth s - 2 * s.px_pitch_x + s.px_len_x) * (W : ℚ))
  let yi : ℤ := roundHE (y / (sensorHeight s - 2 * s.px_pitch_y + s.px_len_y) * (H : ℚ))
  let xmin : ℤ := max (xi - bx) 0
  let ymin : ℤ := max (yi - bY) 0
  let xmax : ℤ := min (xi + bx + 1) (W : ℤ)
  let ymax : ℤ := min (yi + bY + 1) (H : ℤ)
  let cols : List ℤ := (List.range (xmax - xmin).toNat).map (fun t => xmin + (t : ℤ))
  let rows : List ℤ := (List.range (ymax - ymin).toNat).map (fun t => ymin + (t : ℤ))
  rows.flatMap (fun (cy : ℤ) =>
    cols.map (fun (cx : ℤ) =>
      let x_lb := s.px_pitch_x * (cx : ℚ) - s.px_len_x - x
      let x_ub := s.px_pitch_x * (cx : ℚ) - x
      let y_lb := s.px_pitch_y * (cy : ℚ) - s.px_len_y - y
      let y_ub := s.px_pitch_y * (cy : ℚ) - y
      let fx : ℕ → ℚ := fun k => x_lb + (k : ℚ) * (x_ub - x_lb) / ((nx : ℚ) - 1)
      let fy : ℕ → ℚ := fun k => y_lb + (k : ℚ) * (y_ub - y_lb) / ((ny : ℚ) - 1)
      ((cy, cx), dose * trap (fun kx => trap (fun ky => lens.psf (fx kx) (fy ky)) ny dy) nx dx)))

/-- `self.pixels[y, x] += v` for a single (possibly out-of-window) index
pair; indices produced by `srcCounts` are always in range. -/
def addAt {H W : ℕ} (p : Mat H W) (y x : ℤ) (v : ℕ) : Mat H W :=
  fun i j => if (i.val : ℤ) = y ∧ (j.val : ℤ) = x then p i j + (v : ℚ) else p i j

/-- `self.pixels[idys, idxs] += draws` over a footprint (indices within one
footprint are pairwise distinct, so element-wise addition is exact). -/
def addListAt {H W : ℕ} (p : Mat H W) : List ((ℤ × ℤ) × ℕ) → Mat H W
  | [] => p
  | ((yx, v) :: rest) => addListAt (addAt p yx.1 yx.2 v) rest

/-- `Sensor._applyPSF`: for each source in order, draw Poisson counts over
its footprint and deposit them; a raise (negative mean) stops the loop and
keeps all writes made for earlier sources. -/
def applyPSF {H W : ℕ} (lens : Lens) (s : Sensor H W) :
    List (ℚ × ℚ × ℚ) → RNG → Option SimError × Sensor H W × RNG
  | [], r => (none, s, r)
  | (x, y, dose) :: rest, r =>
    let counts := srcCounts lens s x y dose
    match poissonList (counts.map Prod.snd) r with
    | .error e => (some e, s, r)
    | .ok (ds, r2) =>
      applyPSF lens
        { s with pixels := addListAt s.pixels ((counts.map Prod.fst).zip ds) }
        rest r2

/-- `zip(xcoords, ycoords, electron_dose)`: truncates to the shortest input,
exactly like Python's `zip`. -/
def zip3 (xs ys ds : List ℚ) : List (ℚ × ℚ × ℚ) := xs.zip (ys.zip ds)

/-- The source-flux stage of `accumulate`: guarded by
`len(photon_flux_density) > 0`, converts fluxes to electron doses and
delegates to `_applyPSF`. -/
def stageSrc {H W : ℕ} (lens : Lens) (t : ℚ) (xs ys fluxes : List ℚ)
    (s : Sensor H W) (r : RNG) : Option SimError × Sensor H W × RNG :=
  if 0 < fluxes.length then
    applyPSF lens s (zip3 xs ys (fluxes.map (fun f => f * t * s.quantum_eff * lens.area))) r
  else (none, s, r)

/-- The sky-background stage of `accumulate`: per-pixel mean
`background_flux * exposure_time * lens.area`, Poisson-sampled and added. -/
def stageBG {H W : ℕ} (lens : Lens) (t bg : ℚ) (s : Sensor H W) (r : RNG) :
    Option SimError × Sensor H W × RNG :=
  match poissonMat (fun _ _ => bg * t * lens.area) r with
  | .error e => (some e, s, r)
  | .ok (d, r2) => (none, { s with pixels := fun i j => s.pixels i j + (d i j : ℚ) }, r2)

/-- Conversion factor from `dark_current(T)` in pA/cm² to electrons per
second per µm², via the source's fixed equivalency `1 pA per m² = 6.28e6
electrons per s per m²`: `1e4 * 6.28e6 / 1e12 = 157/2500`. -/
def darkConvFactor : ℚ := 157 / 2500

/-- Per-pixel dark-current Poisson mean: `hot_pixels` times the converted
dark current times `exposure_time * px_area`. -/
def darkLambda {H W : ℕ} (s : Sensor H W) (t temp : ℚ) : Fin H → Fin W → ℚ :=
  fun i j =>
    s.hot_pixels i j * (s.dark_current temp * darkConvFactor * t * (s.px_len_x * s.px_len_y))

/-- The dark-current stage of `accumulate`. -/
def stageDark {H W : ℕ} (t temp : ℚ) (s : Sensor H W) (r : RNG) :
    Option SimError × Sensor H W × RNG :=
  match poissonMat (darkLambda s t temp) r with
  | .error e => (some e, s, r)
  | .ok (d, r2) => (none, { s with pixels := fun i j => s.pixels i j + (d i j : ℚ) }, r2)

/-- `Sensor.accumulate`: source flux, then background, then dark current,
then saturation/bloom.  A raise propagates immediately, leaving the pixel
buffer with all writes made by the stages that ran before the failure. -/
def accumulate {H W : ℕ} (s : Sensor H W) (lens : Lens) (t temp : ℚ)
    (xs ys fluxes : List ℚ) (bg : ℚ) (r : RNG) : Option SimError × Sensor H W × RNG :=
  match stageSrc lens t xs ys fluxes s r with
  | (some e, s1, r1) => (some e, s1, r1)
  | (none, s1, r1) =>
    match stageBG lens t bg s1 r1 with
    | (some e, s2, r2) => (some e, s2, r2)
    | (none, s2, r2) =>
      match stageDark t temp s2 r2 with
      | (some e, s3, r3) => (some e, s3, r3)
      | (none, s3, r3) => (none, applyBloomSensor s3, r3)

/-- `Sensor.readout`: add per-pixel Poisson read noise into the buffer, then
return `np.minimum(np.floor(pixels * gain) + bias, adc_limit)`.  On a raise
(negative `read_noise` mean) the buffer is untouched and no image exists
(modelled by an all-zero placeholder next to the error). -/
def readout {H W : ℕ} (s : Sensor H W) (r : RNG) :
    Option SimError × (Fin H → Fin W → ℤ) × Sensor H W × RNG :=
  match poissonMat (fun _ _ => s.read_noise) r with
  | .error e => (some e, fun _ _ => 0, s, r)
  | .ok (noise, r2) =>
    let p2 : Mat H W := fun i j => s.pixels i j + (noise i j : ℚ)
    (none, fun i j => min (⌊p2 i j * s.gain⌋ + s.bias i j) s.adc_limit,
     { s with pixels := p2 }, r2)

/-- `Sensor.clear`: reset the pixel buffer to zero electrons. -/
def clear {H W : ℕ} (s : Sensor H W) : Sensor H W :=
  { s with pixels := fun _ _ => 0 }

/-- One full exposure `clear → accumulate → readout`. -/
def pipeline {H W : ℕ} (s : Sensor H W) (lens : Lens) (t temp : ℚ)
    (xs ys fluxes : List ℚ) (bg : ℚ) (r : RNG) :
    Option SimError × (Fin H → Fin W → ℤ) × Sensor H W × RNG :=
  match accumulate (clear s) lens t temp xs ys fluxes bg r with
  | (some e, s1, r1) => (some e, fun _ _ => 0, s1, r1)
  | (none, s1, r1) => readout s1 r1

/-- The `bias` constructor argument after `np.asanyarray(bias, dtype=int)`:
a scalar, a 1-D array, or a 2-D array. -/
inductive BiasInput
  | scalar (b : ℤ)
  | oneD (v : List ℤ)
  | twoD (rows : List (List ℤ))

/-- The `bias` validation/broadcast branch of `Sensor.__init__`.  Note that
the source's `if len(bias) == 1: pass` line has no effect: its body is
`pass` and control falls through to the `len(bias) == width_px` test, whose
`else` raises. -/
def biasInit (H W : ℕ) : BiasInput → Except Unit (Fin H → Fin W → ℤ)
  | .scalar b => .ok (fun _ _ => b)
  | .oneD v =>
    if v.length = W then .ok (fun _ j => v.getD j.val 0) else .error ()
  | .twoD rows =>
    if rows.length = H ∧ ∀ rw ∈ rows, rw.length = W then
      .ok (fun i j => (rows.getD i.val []).getD j.val 0)
    else .error ()

/-- Empty bloom set. -/
def noBloom : BloomDirs := ⟨false, false, false, false⟩

/-- `bloom = {'+x', '-x'}`. -/
def bloomLR : BloomDirs := ⟨true, true, false, false⟩

/-- `bloom = {'+x', '-x', '+y', '-y'}`. -/
def bloomAll : BloomDirs := ⟨true, true, true, true⟩

/-- A 1×2 buffer with value `v` in column `j` and `0` in the other column. -/
def mat2 (j : Fin 2) (v : ℚ) : Mat 1 2 := fun _ c => if c = j then v else 0

/-- Buffer that is `full_well + 4k` at `(r, c)` and `0` elsewhere. -/
def spikeMat (H W : ℕ) (r c : ℕ) (fw : ℚ) (k : ℕ) : Mat H W :=
  fun i j => if i.val = r ∧ j.val = c then fw + 4 * (k : ℚ) else 0

/-- A unit-geometry sensor used to instantiate theorems on concrete inputs. -/
def constSensor (H W : ℕ) (fw rn : ℚ) (B : BloomDirs) (dc : ℚ → ℚ) : Sensor H W :=
  { px_len_x := 1, px_len_y := 1, px_pitch_x := 1, px_pitch_y := 1, quantum_eff := 1,
    dark_current := dc, hot_pixels := fun _ _ => 1, read_noise := rn, gain := 1,
    bias := fun _ _ => 0, full_well := fw, adc_limit := 100, bloom := B,
    pixels := fun _ _ => 0 }

/-- A unit lens with a vanishing PSF, for concrete instantiations. -/
def lens1 : Lens :=
  { area := 1, psf := fun _ _ => 0, psf_bounds_x := 1, psf_bounds_y := 1,
    psf_resolution := 1 }

/-- A generator producing the constant raw draw `c`. -/
def rngConst (c : ℕ) : RNG := ⟨fun _ => c, 0⟩

/-- Two raw draw streams agree on every index below `n`: the runs they feed
are started from the same seed and consume fewer than `n` draws. -/
def agreeBelow (g1 g2 : ℕ → ℕ) (n : ℕ) : Prop := ∀ i, i < n → g1 i = g2 i

section BloomPointwise

variable {H W : ℕ}

lemma excess_nonneg (fw : ℚ) (p : Mat H W) (i : Fin H) (j : Fin W) :
    0 ≤ excess fw p i j := le_max_left 0 _

lemma getE_nonneg (m : Mat H W) (hm : ∀ i j, 0 ≤ m i j) (y x : ℤ) : 0 ≤ getE m y x := by
  unfold getE
  split
  · split
    · exact hm _ _
    · exact le_refl 0
  · exact le_refl 0

lemma totE_nonneg (e : Mat H W) (he : ∀ i j, 0 ≤ e i j) : 0 ≤ totE e :=
  Finset.sum_nonneg fun i _ => Finset.sum_nonneg fun j _ => he i j

lemma entry_le_totE (e : Mat H W) (he : ∀ i j, 0 ≤ e i j) (i : Fin H) (j : Fin W) :
    e i j ≤ totE e := by
  have h1 : e i j ≤ ∑ j', e i j' :=
    Finset.single_le_sum (fun j' _ => he i j') (Finset.mem_univ j)
  have h2 : (∑ j', e i j') ≤ totE e :=
    Finset.single_le_sum (f := fun i' => ∑ j', e i' j')
      (fun i' _ => Finset.sum_nonneg fun j' _ => he i' j') (Finset.mem_univ i)
  exact h1.trans h2

lemma getE_le_totE (e : Mat H W) (he : ∀ i j, 0 ≤ e i j) (y x : ℤ) :
    getE e y x ≤ totE e := by
  unfold getE
  split
  · split
    · exact entry_le_totE e he _ _
    · exact totE_nonneg e he
  · exact totE_nonneg e he

lemma bloomConv_nonneg (B : BloomDirs) (e : Mat H W) (he : ∀ i j, 0 ≤ e i j)
    (i : Fin H) (j : Fin W) : 0 ≤ bloomConv B e i j := by
  unfold bloomConv
  have h0 : ∀ (b : Bool) (q : ℚ), 0 ≤ q → 0 ≤ (if b then q else 0) := by
    intro b q hq; cases b <;> simp [hq]
  apply mul_nonneg
  · positivity
  · have := getE_nonneg e he
    have a1 := h0 B.plusX _ (this (i.val : ℤ) ((j.val : ℤ) - 1))
    have a2 := h0 B.minusX _ (this (i.val : ℤ) ((j.val : ℤ) + 1))
    have a3 := h0 B.plusY _ (this ((i.val : ℤ) - 1) (j.val : ℤ))
    have a4 := h0 B.minusY _ (this ((i.val : ℤ) + 1) (j.val : ℤ))
    linarith

lemma bloomConv_le_totE (B : BloomDirs) (e : Mat H W) (he : ∀ i j, 0 ≤ e i j)
    (i : Fin H) (j : Fin W) : bloomConv B e i j ≤ totE e := by
  have hT := totE_nonneg e he
  rcases Nat.eq_zero_or_pos B.count with hc | hc
  · rcases B with ⟨px, mx, py, my⟩
    cases px <;> cases mx <;> cases py <;> cases my <;>
      simp_all [BloomDirs.count, bloomConv]
  · unfold bloomConv
    have key : ∀ (b : Bool) (q : ℚ), q ≤ totE e →
        (if b then q else 0) ≤ (if b then (1 : ℚ) else 0) * totE e := by
      intro b q hq; cases b <;> simp [hq]
    have hle := getE_le_totE e he
    have a1 := key B.plusX _ (hle (i.val : ℤ) ((j.val : ℤ) - 1))
    have a2 := key B.minusX _ (hle (i.val : ℤ) ((j.val : ℤ) + 1))
    have a3 := key B.plusY _ (hle ((i.val : ℤ) - 1) (j.val : ℤ))
    have a4 := key B.minusY _ (hle ((i.val : ℤ) + 1) (j.val : ℤ))
    have hsum : ((if B.plusX then (1 : ℚ) else 0) + (if B.minusX then (1 : ℚ) else 0) +
        (if B.plusY then (1 : ℚ) else 0) + (if B.minusY then (1 : ℚ) else 0)) =
        (B.count : ℚ) := by
      rcases B with ⟨px, mx, py, my⟩
      cases px <;> cases mx <;> cases py <;> cases my <;> simp [BloomDirs.count] <;> norm_num
    have hd : (0 : ℚ) < (B.count : ℚ) := by exact_mod_cast hc
    have step1 : (if B.plusX then getE e (i.val : ℤ) ((j.val : ℤ) - 1) else 0) +
        (if B.minusX then getE e (i.val : ℤ) ((j.val : ℤ) + 1) else 0) +
        (if B.plusY then getE e ((i.val : ℤ) - 1) (j.val : ℤ) else 0) +
        (if B.minusY then getE e ((i.val : ℤ) + 1) (j.val : ℤ) else 0) ≤
        (B.count : ℚ) * totE e := by
      calc _ ≤ (if B.plusX then (1 : ℚ) else 0) * totE e +
          (if B.minusX then (1 : ℚ) else 0) * totE e +
          (if B.plusY then (1 : ℚ) else 0) * totE e +
          (if B.minusY then (1 : ℚ) else 0) * totE e := by linarith
        _ = _ := by rw [← hsum]; ring
    calc (1 / (B.count : ℚ)) * _ ≤ (1 / (B.count : ℚ)) * ((B.count : ℚ) * totE e) := by
          apply mul_le_mul_of_nonneg_left step1; positivity
      _ = totE e := by field_simp

/-- `pixels - excess` caps each saturated pixel at `full_well`. -/
lemma sub_excess_eq_min (fw : ℚ) (p : Mat H W) (i : Fin H) (j : Fin W) :
    p i j - excess fw p i j = min (p i j) fw := by
  unfold excess
  rcases le_total (p i j) fw with h | h
  · rw [max_eq_left (by linarith), min_eq_left h]; ring
  · rw [max_eq_right (by linarith), min_eq_right h]; ring

lemma bloomStep_eq_min_add (B : BloomDirs) (fw : ℚ) (p : Mat H W) (i : Fin H) (j : Fin W) :
    bloomStep B fw p i j =
      min (p i j) fw + ((⌊bloomConv B (excess fw p) i j⌋ : ℤ) : ℚ) := by
  unfold bloomStep
  rw [sub_excess_eq_min]

lemma floor_conv_nonneg (B : BloomDirs) (fw : ℚ) (p : Mat H W) (i : Fin H) (j : Fin W) :
    (0 : ℤ) ≤ ⌊bloomConv B (excess fw p) i j⌋ :=
  Int.floor_nonneg.2 (bloomConv_nonneg B _ (excess_nonneg fw p) i j)

lemma bloomStep_nonneg (B : BloomDirs) (fw : ℚ) (p : Mat H W) (hfw : 0 ≤ fw)
    (hp : ∀ i j, 0 ≤ p i j) (i : Fin H) (j : Fin W) : 0 ≤ bloomStep B fw p i j := by
  rw [bloomStep_eq_min_add]
  have h1 : 0 ≤ min (p i j) fw := le_min (hp i j) hfw
  have h2 := floor_conv_nonneg B fw p i j
  have h2' : (0 : ℚ) ≤ ((⌊bloomConv B (excess fw p) i j⌋ : ℤ) : ℚ) := by exact_mod_cast h2
  linarith

/-- New excess after one bloom step is at most the floored convolution term. -/
lemma excess_bloomStep_le (B : BloomDirs) (fw : ℚ) (p : Mat H W) (i : Fin H) (j : Fin W) :
    excess fw (bloomStep B fw p) i j ≤ ((⌊bloomConv B (excess fw p) i j⌋ : ℤ) : ℚ) := by
  have hA : (0 : ℚ) ≤ ((⌊bloomConv B (excess fw p) i j⌋ : ℤ) : ℚ) := by
    exact_mod_cast floor_conv_nonneg B fw p i j
  have hmin : min (p i j) fw ≤ fw := min_le_right _ _
  have hrw : excess fw (bloomStep B fw p) i j = max 0 (bloomStep B fw p i j - fw) := rfl
  rw [hrw, bloomStep_eq_min_add]
  apply max_le
  · exact hA
  · linarith

/-- If total excess is below one electron, a single step extinguishes it. -/
lemma excess_bloomStep_zero_of_small (B : BloomDirs) (fw : ℚ) (p : Mat H W)
    (hsmall : totE (excess fw p) < 1) : excess fw (bloomStep B fw p) = 0 := by
  funext i j
  have he := excess_nonneg fw p
  have hconv0 : ⌊bloomConv B (excess fw p) i j⌋ = 0 := by
    rw [Int.floor_eq_zero_iff]
    constructor
    · exact bloomConv_nonneg B _ he i j
    · exact lt_of_le_of_lt (bloomConv_le_totE B _ he i j) hsmall
  have h := excess_bloomStep_le B fw p i j
  rw [hconv0] at h
  have h0 := excess_nonneg fw (bloomStep B fw p) i j
  simp only [Pi.zero_apply]
  push_cast at h
  linarith

/-- A state with no excess is a fixed point of the bloom step. -/
lemma bloomStep_fix (B : BloomDirs) (fw : ℚ) (p : Mat H W)
    (h : excess fw p = 0) : bloomStep B fw p = p := by
  funext i j
  unfold bloomStep
  have hc : bloomConv B (excess fw p) i j = 0 := by
    rw [h]
    unfold bloomConv getE
    have z : ∀ (b : Bool) (y x : ℤ),
        (if b then (if hy : 0 ≤ y ∧ y < (H : ℤ) then
          (if hx : 0 ≤ x ∧ x < (W : ℤ) then
            (0 : Mat H W) ⟨y.toNat, by omega⟩ ⟨x.toNat, by omega⟩ else 0) else 0) else 0) = 0 := by
      intro b y x
      cases b <;> simp
    rw [z, z, z, z]
    simp
  rw [hc, h]
  simp

lemma bloomStep_iterate_fix (B : BloomDirs) (fw : ℚ) (p : Mat H W)
    (h : excess fw p = 0) (n : ℕ) : (bloomStep B fw)^[n] p = p := by
  induction n with
  | zero => rfl
  | succ n ih =>
    rw [Function.iterate_succ_apply, bloomStep_fix B fw p h, ih]

/-- The loop guard `not any(excess > 0)` is exactly `excess = 0`. -/
lemma no_excess_iff (fw : ℚ) (p : Mat H W) :
    (¬ ∃ i j, 0 < excess fw p i j) ↔ excess fw p = 0 := by
  constructor
  · intro h
    funext i j
    push_neg at h
    exact le_antisymm (h i j) (excess_nonneg fw p i j)
  · intro h hex
    rcases hex with ⟨i, j, hij⟩
    rw [h] at hij
    exact lt_irrefl 0 hij

/-- The fuelled loop agrees with pure iteration of the step function. -/
lemma bloomLoop_eq_iterate (B : BloomDirs) (fw : ℚ) (n : ℕ) (p : Mat H W) :
    bloomLoop B fw n p = (bloomStep B fw)^[n] p := by
  induction n generalizing p with
  | zero => rfl
  | succ n ih =>
    unfold bloomLoop
    split
    · rw [ih, Function.iterate_succ_apply]
    · rename_i h
      rw [no_excess_iff] at h
      rw [bloomStep_iterate_fix B fw p h]

lemma bloomLoop_nonneg (B : BloomDirs) (fw : ℚ) (hfw : 0 ≤ fw) (n : ℕ) (p : Mat H W)
    (hp : ∀ i j, 0 ≤ p i j) : ∀ i j, 0 ≤ bloomLoop B fw n p i j := by
  rw [bloomLoop_eq_iterate]
  induction n generalizing p with
  | zero => exact hp
  | succ n ih =>
    rw [Function.iterate_succ_apply]
    exact ih (bloomStep B fw p) (bloomStep_nonneg B fw p hfw hp)

end BloomPointwise

section BloomPotential

variable {H W : ℕ}

lemma gAx_nonneg (plus minus : Bool) (n : ℕ) (c : ℤ) (h1 : -1 ≤ c) (h2 : c ≤ (n : ℤ)) :
    0 ≤ gAx plus minus n c := by
  have hc1 : (0 : ℚ) ≤ (c : ℚ) + 1 := by
    have : (-1 : ℚ) ≤ (c : ℚ) := by exact_mod_cast h1
    linarith
  have hc2 : (0 : ℚ) ≤ (n : ℚ) - (c : ℚ) := by
    have : (c : ℚ) ≤ (n : ℚ) := by exact_mod_cast h2
    linarith
  cases plus <;> cases minus <;> simp only [gAx]
  · exact le_refl 0
  · exact hc1
  · exact hc2
  · exact mul_nonneg hc1 hc2

lemma gAx_ge_one (plus minus : Bool) (hpm : plus = true ∨ minus = true) (n : ℕ) (c : ℤ)
    (h1 : 0 ≤ c) (h2 : c < (n : ℤ)) : 1 ≤ gAx plus minus n c := by
  have hc1 : (1 : ℚ) ≤ (c : ℚ) + 1 := by
    have : (0 : ℚ) ≤ (c : ℚ) := by exact_mod_cast h1
    linarith
  have hc2 : (1 : ℚ) ≤ (n : ℚ) - (c : ℚ) := by
    have : (c : ℚ) + 1 ≤ (n : ℚ) := by exact_mod_cast h2
    linarith
  cases plus <;> cases minus <;> simp only [gAx]
  · rcases hpm with h | h <;> simp at h
  · exact hc1
  · exact hc2
  · nlinarith

lemma gAx_le_bound (plus minus : Bool) (n : ℕ) (c : ℤ) (h1 : 0 ≤ c) (h2 : c < (n : ℤ)) :
    gAx plus minus n c ≤ ((n : ℚ) + 1) ^ 2 := by
  have hc0 : (0 : ℚ) ≤ (c : ℚ) := by exact_mod_cast h1
  have hcn : (c : ℚ) + 1 ≤ (n : ℚ) := by exact_mod_cast h2
  cases plus <;> cases minus <;> simp only [gAx] <;> nlinarith

lemma gPot_nonneg (B : BloomDirs) (y x : ℤ) (hy1 : -1 ≤ y) (hy2 : y ≤ (H : ℤ))
    (hx1 : -1 ≤ x) (hx2 : x ≤ (W : ℤ)) : 0 ≤ gPot B H W y x :=
  add_nonneg (gAx_nonneg _ _ _ _ hx1 hx2) (gAx_nonneg _ _ _ _ hy1 hy2)

lemma gPot_ge_one (B : BloomDirs) (hB : 0 < B.count) (y x : ℤ) (hy1 : 0 ≤ y)
    (hy2 : y < (H : ℤ)) (hx1 : 0 ≤ x) (hx2 : x < (W : ℤ)) : 1 ≤ gPot B H W y x := by
  have hX0 : 0 ≤ gAx B.plusX B.minusX W x := gAx_nonneg _ _ _ _ (by linarith) (by linarith)
  have hY0 : 0 ≤ gAx B.plusY B.minusY H y := gAx_nonneg _ _ _ _ (by linarith) (by linarith)
  unfold gPot
  by_cases hx : B.plusX = true ∨ B.minusX = true
  · have h1 := gAx_ge_one B.plusX B.minusX hx W x hx1 hx2
    linarith
  · push_neg at hx
    have hpx : B.plusX = false := Bool.eq_false_iff.mpr hx.1
    have hmx : B.minusX = false := Bool.eq_false_iff.mpr hx.2
    have hy : B.plusY = true ∨ B.minusY = true := by
      by_contra hcon
      push_neg at hcon
      have hpy : B.plusY = false := Bool.eq_false_iff.mpr hcon.1
      have hmy : B.minusY = false := Bool.eq_false_iff.mpr hcon.2
      simp [BloomDirs.count, hpx, hmx, hpy, hmy] at hB
    have h1 := gAx_ge_one B.plusY B.minusY hy H y hy1 hy2
    linarith

lemma gPot_le_gBound (B : BloomDirs) (y x : ℤ) (hy1 : 0 ≤ y) (hy2 : y < (H : ℤ))
    (hx1 : 0 ≤ x) (hx2 : x < (W : ℤ)) : gPot B H W y x ≤ gBound H W := by
  have h1 := gAx_le_bound B.plusX B.minusX W x hx1 hx2
  have h2 := gAx_le_bound B.plusY B.minusY H y hy1 hy2
  unfold gPot gBound
  linarith

/-- Moving one cell in each active direction decreases the total potential
weight by exactly `|bloom|`. -/
lemma gPot_move (B : BloomDirs) (i j : ℤ) :
    (if B.plusX then gPot B H W i (j + 1) else 0) +
    (if B.minusX then gPot B H W i (j - 1) else 0) +
    (if B.plusY then gPot B H W (i + 1) j else 0) +
    (if B.minusY then gPot B H W (i - 1) j else 0) =
    (B.count : ℚ) * (gPot B H W i j - 1) := by
  rcases B with ⟨px, mx, py, my⟩
  cases px <;> cases mx <;> cases py <;> cases my <;>
    simp only [gPot, gAx, BloomDirs.count, if_true, if_false, Bool.false_eq_true] <;>
    push_cast <;> ring

lemma getE_eq_entry (e : Mat H W) {y x : ℤ} (hy1 : 0 ≤ y) (hy2 : y < (H : ℤ))
    (hx1 : 0 ≤ x) (hx2 : x < (W : ℤ)) :
    getE e y x = e ⟨y.toNat, by omega⟩ ⟨x.toNat, by omega⟩ := by
  unfold getE
  rw [dif_pos ⟨hy1, hy2⟩, dif_pos ⟨hx1, hx2⟩]

lemma getE_eq_zero (e : Mat H W) {y x : ℤ}
    (h : ¬(0 ≤ y ∧ y < (H : ℤ) ∧ 0 ≤ x ∧ x < (W : ℤ))) : getE e y x = 0 := by
  unfold getE
  split
  · split
    · rename_i hy hx
      exact absurd ⟨hy.1, hy.2, hx.1, hx.2⟩ h
    · rfl
  · rfl

lemma getE_coe (e : Mat H W) (i : Fin H) (j : Fin W) :
    getE e (i.val : ℤ) (j.val : ℤ) = e i j := by
  rw [getE_eq_entry e (by positivity) (by exact_mod_cast i.isLt) (by positivity)
    (by exact_mod_cast j.isLt)]
  have hi : (⟨((i.val : ℤ)).toNat, by simp⟩ : Fin H) = i := Fin.ext (by simp)
  have hj : (⟨((j.val : ℤ)).toNat, by simp⟩ : Fin W) = j := Fin.ext (by simp)
  rw [hi, hj]

/-- Membership in the integer grid rectangle. -/
lemma mem_gridZ {H W : ℕ} {q : ℤ × ℤ} :
    q ∈ (Finset.Ico (0 : ℤ) (H : ℤ)) ×ˢ (Finset.Ico (0 : ℤ) (W : ℤ)) ↔
      (0 ≤ q.1 ∧ q.1 < (H : ℤ)) ∧ (0 ≤ q.2 ∧ q.2 < (W : ℤ)) := by
  simp [Finset.mem_product, Finset.mem_Ico]

lemma Ico_int_eq_image (n : ℕ) :
    Finset.Ico (0 : ℤ) (n : ℤ) = (Finset.range n).image (fun t : ℕ => (t : ℤ)) := by
  ext y
  simp only [Finset.mem_Ico, Finset.mem_image, Finset.mem_range]
  constructor
  · intro h
    exact ⟨y.toNat, by omega, by omega⟩
  · rintro ⟨t, ht, rfl⟩
    omega

lemma sum_Ico_int (n : ℕ) (G : ℤ → ℚ) :
    ∑ y ∈ Finset.Ico (0 : ℤ) (n : ℤ), G y = ∑ i : Fin n, G (i.val : ℤ) := by
  rw [Ico_int_eq_image n, Finset.sum_image (fun a _ b _ h => by exact_mod_cast h)]
  exact (Fin.sum_univ_eq_sum_range (fun t : ℕ => G (t : ℤ)) n).symm

/-- A double sum over the `Fin` grid equals the sum over the integer grid
rectangle. -/
lemma sum_grid {H W : ℕ} (F : ℤ → ℤ → ℚ) :
    (∑ p ∈ (Finset.Ico (0 : ℤ) (H : ℤ)) ×ˢ (Finset.Ico (0 : ℤ) (W : ℤ)), F p.1 p.2) =
      ∑ i : Fin H, ∑ j : Fin W, F (i.val : ℤ) (j.val : ℤ) := by
  rw [Finset.sum_product]
  rw [sum_Ico_int H (fun y => ∑ x ∈ Finset.Ico (0 : ℤ) (W : ℤ), F y x)]
  exact Finset.sum_congr rfl fun i _ => sum_Ico_int W (F (i.val : ℤ))

/-- Re-indexing inequality: summing a nonnegative weight against shifted
(zero-filled) excess reads is at most summing the excess against the
correspondingly shifted weight. -/
lemma sum_getE_shift {H W : ℕ} (e : Mat H W) (he : ∀ i j, 0 ≤ e i j) (g : ℤ → ℤ → ℚ)
    (hg : ∀ y x : ℤ, -1 ≤ y → y ≤ (H : ℤ) → -1 ≤ x → x ≤ (W : ℤ) → 0 ≤ g y x)
    (dy dx : ℤ) (hdy1 : -1 ≤ dy) (hdy2 : dy ≤ 1) (hdx1 : -1 ≤ dx) (hdx2 : dx ≤ 1) :
    (∑ i : Fin H, ∑ j : Fin W,
        g (i.val : ℤ) (j.val : ℤ) * getE e ((i.val : ℤ) - dy) ((j.val : ℤ) - dx)) ≤
    ∑ i : Fin H, ∑ j : Fin W, e i j * g ((i.val : ℤ) + dy) ((j.val : ℤ) + dx) := by
  set A : Finset (ℤ × ℤ) := (Finset.Ico (0 : ℤ) (H : ℤ)) ×ˢ (Finset.Ico (0 : ℤ) (W : ℤ))
    with hA
  have hfA : ∀ q ∈ A, 0 ≤ g (q.1 + dy) (q.2 + dx) * getE e q.1 q.2 := by
    intro q hq
    rw [hA, mem_gridZ] at hq
    exact mul_nonneg (hg _ _ (by omega) (by omega) (by omega) (by omega))
      (getE_nonneg e he _ _)
  have L : (∑ i : Fin H, ∑ j : Fin W,
      g (i.val : ℤ) (j.val : ℤ) * getE e ((i.val : ℤ) - dy) ((j.val : ℤ) - dx)) =
      ∑ p ∈ A, g p.1 p.2 * getE e (p.1 - dy) (p.2 - dx) :=
    (sum_grid (fun y x => g y x * getE e (y - dy) (x - dx))).symm
  have R : (∑ i : Fin H, ∑ j : Fin W, e i j * g ((i.val : ℤ) + dy) ((j.val : ℤ) + dx)) =
      ∑ q ∈ A, g (q.1 + dy) (q.2 + dx) * getE e q.1 q.2 := by
    rw [sum_grid (fun y x => g (y + dy) (x + dx) * getE e y x)]
    exact Finset.sum_congr rfl fun i _ => Finset.sum_congr rfl fun j _ => by
      rw [getE_coe]; ring
  rw [L, R]
  have hmap : (∑ p ∈ A, g p.1 p.2 * getE e (p.1 - dy) (p.2 - dx)) =
      ∑ q ∈ A.map (shiftEmb dy dx), g (q.1 + dy) (q.2 + dx) * getE e q.1 q.2 := by
    rw [Finset.sum_map A (shiftEmb dy dx)
      (fun q => g (q.1 + dy) (q.2 + dx) * getE e q.1 q.2)]
    refine Finset.sum_congr rfl fun p _ => ?_
    show g p.1 p.2 * getE e (p.1 - dy) (p.2 - dx) =
      g (p.1 - dy + dy) (p.2 - dx + dx) * getE e (p.1 - dy) (p.2 - dx)
    rw [sub_add_cancel, sub_add_cancel]
  rw [hmap]
  have hsplit : (∑ q ∈ A.map (shiftEmb dy dx), g (q.1 + dy) (q.2 + dx) * getE e q.1 q.2) =
      ∑ q ∈ (A.map (shiftEmb dy dx)).filter (fun q => q ∈ A),
        g (q.1 + dy) (q.2 + dx) * getE e q.1 q.2 := by
    refine (Finset.sum_subset (Finset.filter_subset _ _) ?_).symm
    intro q hq hq2
    have hqA : q ∉ A := by
      intro hcon
      exact hq2 (Finset.mem_filter.mpr ⟨hq, hcon⟩)
    rw [hA, mem_gridZ] at hqA
    rw [getE_eq_zero e (by tauto), mul_zero]
  rw [hsplit]
  refine Finset.sum_le_sum_of_subset_of_nonneg ?_ (fun q hq _ => hfA q hq)
  intro q hq
  exact (Finset.mem_filter.mp hq).2

/-- One bloom iteration decreases the potential by at least the total
excess: floors only lose charge, boundary spill only loses charge, and each
surviving move lowers its weight by at least one. -/
lemma potE_bloomStep (B : BloomDirs) (hB : 0 < B.count) (fw : ℚ) (p : Mat H W) :
    potE B (excess fw (bloomStep B fw p)) ≤
      potE B (excess fw p) - totE (excess fw p) := by
  have he : ∀ i j, 0 ≤ excess fw p i j := excess_nonneg fw p
  have hg : ∀ y x : ℤ, -1 ≤ y → y ≤ (H : ℤ) → -1 ≤ x → x ≤ (W : ℤ) →
      0 ≤ gPot B H W y x := fun y x h1 h2 h3 h4 => gPot_nonneg B y x h1 h2 h3 h4
  have hgrid0 : ∀ (i : Fin H) (j : Fin W), 0 ≤ gPot B H W (i.val : ℤ) (j.val : ℤ) := by
    intro i j
    have h1 : i.val < H := i.isLt
    have h2 : j.val < W := j.isLt
    exact gPot_nonneg B _ _ (by omega) (by omega) (by omega) (by omega)
  have hd0 : (0 : ℚ) < (B.count : ℚ) := by exact_mod_cast hB
  have step1 : potE B (excess fw (bloomStep B fw p)) ≤
      ∑ i, ∑ j, bloomConv B (excess fw p) i j * gPot B H W (i.val : ℤ) (j.val : ℤ) := by
    unfold potE
    refine Finset.sum_le_sum fun i _ => Finset.sum_le_sum fun j _ => ?_
    have h1 := excess_bloomStep_le B fw p i j
    have h2 : ((⌊bloomConv B (excess fw p) i j⌋ : ℤ) : ℚ) ≤
        bloomConv B (excess fw p) i j := Int.floor_le _
    exact mul_le_mul_of_nonneg_right (h1.trans h2) (hgrid0 i j)
  have b1 : (∑ i : Fin H, ∑ j : Fin W, (if B.plusX then
        gPot B H W (i.val : ℤ) (j.val : ℤ) * getE (excess fw p) (i.val : ℤ) ((j.val : ℤ) - 1)
      else 0)) ≤
      ∑ i : Fin H, ∑ j : Fin W, excess fw p i j *
        (if B.plusX then gPot B H W (i.val : ℤ) ((j.val : ℤ) + 1) else 0) := by
    cases hb : B.plusX
    · simp
    · simp only [if_true]
      have := sum_getE_shift (excess fw p) he (gPot B H W) hg 0 1
        (by norm_num) (by norm_num) (by norm_num) (by norm_num)
      simpa using this
  have b2 : (∑ i : Fin H, ∑ j : Fin W, (if B.minusX then
        gPot B H W (i.val : ℤ) (j.val : ℤ) * getE (excess fw p) (i.val : ℤ) ((j.val : ℤ) + 1)
      else 0)) ≤
      ∑ i : Fin H, ∑ j : Fin W, excess fw p i j *
        (if B.minusX then gPot B H W (i.val : ℤ) ((j.val : ℤ) - 1) else 0) := by
    cases hb : B.minusX
    · simp
    · simp only [if_true]
      have := sum_getE_shift (excess fw p) he (gPot B H W) hg 0 (-1)
        (by norm_num) (by norm_num) (by norm_num) (by norm_num)
      simpa [sub_neg_eq_add, ← sub_eq_add_neg] using this
  have b3 : (∑ i : Fin H, ∑ j : Fin W, (if B.plusY then
        gPot B H W (i.val : ℤ) (j.val : ℤ) * getE (excess fw p) ((i.val : ℤ) - 1) (j.val : ℤ)
      else 0)) ≤
      ∑ i : Fin H, ∑ j : Fin W, excess fw p i j *
        (if B.plusY then gPot B H W ((i.val : ℤ) + 1) (j.val : ℤ) else 0) := by
    cases hb : B.plusY
    · simp
    · simp only [if_true]
      have := sum_getE_shift (excess fw p) he (gPot B H W) hg 1 0
        (by norm_num) (by norm_num) (by norm_num) (by norm_num)
      simpa using this
  have b4 : (∑ i : Fin H, ∑ j : Fin W, (if B.minusY then
        gPot B H W (i.val : ℤ) (j.val : ℤ) * getE (excess fw p) ((i.val : ℤ) + 1) (j.val : ℤ)
      else 0)) ≤
      ∑ i : Fin H, ∑ j : Fin W, excess fw p i j *
        (if B.minusY then gPot B H W ((i.val : ℤ) - 1) (j.val : ℤ) else 0) := by
    cases hb : B.minusY
    · simp
    · simp only [if_true]
      have := sum_getE_shift (excess fw p) he (gPot B H W) hg (-1) 0
        (by norm_num) (by norm_num) (by norm_num) (by norm_num)
      simpa [sub_neg_eq_add, ← sub_eq_add_neg] using this
  have step2 : (∑ i, ∑ j, bloomConv B (excess fw p) i j * gPot B H W (i.val : ℤ) (j.val : ℤ)) ≤
      potE B (excess fw p) - totE (excess fw p) := by
    have expand : (∑ i, ∑ j,
        bloomConv B (excess fw p) i j * gPot B H W (i.val : ℤ) (j.val : ℤ)) =
        (1 / (B.count : ℚ)) *
          ((∑ i : Fin H, ∑ j : Fin W, (if B.plusX then
              gPot B H W (i.val : ℤ) (j.val : ℤ) *
                getE (excess fw p) (i.val : ℤ) ((j.val : ℤ) - 1) else 0)) +
           (∑ i : Fin H, ∑ j : Fin W, (if B.minusX then
              gPot B H W (i.val : ℤ) (j.val : ℤ) *
                getE (excess fw p) (i.val : ℤ) ((j.val : ℤ) + 1) else 0)) +
           (∑ i : Fin H, ∑ j : Fin W, (if B.plusY then
              gPot B H W (i.val : ℤ) (j.val : ℤ) *
                getE (excess fw p) ((i.val : ℤ) - 1) (j.val : ℤ) else 0)) +
           (∑ i : Fin H, ∑ j : Fin W, (if B.minusY then
              gPot B H W (i.val : ℤ) (j.val : ℤ) *
                getE (excess fw p) ((i.val : ℤ) + 1) (j.val : ℤ) else 0))) := by
      rw [← Finset.sum_add_distrib, ← Finset.sum_add_distrib, ← Finset.sum_add_distrib,
        Finset.mul_sum]
      refine Finset.sum_congr rfl fun i _ => ?_
      rw [← Finset.sum_add_distrib, ← Finset.sum_add_distrib, ← Finset.sum_add_distrib,
        Finset.mul_sum]
      refine Finset.sum_congr rfl fun j _ => ?_
      simp only [bloomConv]
      split_ifs <;> ring
    have combine : (∑ i : Fin H, ∑ j : Fin W, excess fw p i j *
          (if B.plusX then gPot B H W (i.val : ℤ) ((j.val : ℤ) + 1) else 0)) +
        (∑ i : Fin H, ∑ j : Fin W, excess fw p i j *
          (if B.minusX then gPot B H W (i.val : ℤ) ((j.val : ℤ) - 1) else 0)) +
        (∑ i : Fin H, ∑ j : Fin W, excess fw p i j *
          (if B.plusY then gPot B H W ((i.val : ℤ) + 1) (j.val : ℤ) else 0)) +
        (∑ i : Fin H, ∑ j : Fin W, excess fw p i j *
          (if B.minusY then gPot B H W ((i.val : ℤ) - 1) (j.val : ℤ) else 0)) =
        (B.count : ℚ) * (potE B (excess fw p) - totE (excess fw p)) := by
      have inner : ∀ i : Fin H,
          ((∑ j : Fin W, excess fw p i j *
              (if B.plusX then gPot B H W (i.val : ℤ) ((j.val : ℤ) + 1) else 0)) +
           (∑ j : Fin W, excess fw p i j *
              (if B.minusX then gPot B H W (i.val : ℤ) ((j.val : ℤ) - 1) else 0)) +
           (∑ j : Fin W, excess fw p i j *
              (if B.plusY then gPot B H W ((i.val : ℤ) + 1) (j.val : ℤ) else 0)) +
           (∑ j : Fin W, excess fw p i j *
              (if B.minusY then gPot B H W ((i.val : ℤ) - 1) (j.val : ℤ) else 0))) =
          (B.count : ℚ) *
            ((∑ j : Fin W, excess fw p i j * gPot B H W (i.val : ℤ) (j.val : ℤ)) -
             ∑ j : Fin W, excess fw p i j) := by
        intro i
        rw [← Finset.sum_add_distrib, ← Finset.sum_add_distrib, ← Finset.sum_add_distrib]
        calc (∑ j : Fin W,
            (excess fw p i j * (if B.plusX then gPot B H W (i.val : ℤ) ((j.val : ℤ) + 1) else 0) +
             excess fw p i j * (if B.minusX then gPot B H W (i.val : ℤ) ((j.val : ℤ) - 1) else 0) +
             excess fw p i j * (if B.plusY then gPot B H W ((i.val : ℤ) + 1) (j.val : ℤ) else 0) +
             excess fw p i j * (if B.minusY then gPot B H W ((i.val : ℤ) - 1) (j.val : ℤ) else 0)))
            = ∑ j : Fin W, (B.count : ℚ) *
                (excess fw p i j * gPot B H W (i.val : ℤ) (j.val : ℤ) - excess fw p i j) := by
              refine Finset.sum_congr rfl fun j _ => ?_
              have hmv := gPot_move (H := H) (W := W) B (i.val : ℤ) (j.val : ℤ)
              calc _ = excess fw p i j *
                  ((if B.plusX then gPot B H W (i.val : ℤ) ((j.val : ℤ) + 1) else 0) +
                   (if B.minusX then gPot B H W (i.val : ℤ) ((j.val : ℤ) - 1) else 0) +
                   (if B.plusY then gPot B H W ((i.val : ℤ) + 1) (j.val : ℤ) else 0) +
                   (if B.minusY then gPot B H W ((i.val : ℤ) - 1) (j.val : ℤ) else 0)) := by
                    ring
                _ = _ := by rw [hmv]; ring
          _ = (B.count : ℚ) *
              ((∑ j : Fin W, excess fw p i j * gPot B H W (i.val : ℤ) (j.val : ℤ)) -
               ∑ j : Fin W, excess fw p i j) := by
              rw [← Finset.mul_sum, Finset.sum_sub_distrib]
      calc _ = ∑ i : Fin H,
            (((∑ j : Fin W, excess fw p i j *
                (if B.plusX then gPot B H W (i.val : ℤ) ((j.val : ℤ) + 1) else 0)) +
              (∑ j : Fin W, excess fw p i j *
                (if B.minusX then gPot B H W (i.val : ℤ) ((j.val : ℤ) - 1) else 0)) +
              (∑ j : Fin W, excess fw p i j *
                (if B.plusY then gPot B H W ((i.val : ℤ) + 1) (j.val : ℤ) else 0)) +
              (∑ j : Fin W, excess fw p i j *
                (if B.minusY then gPot B H W ((i.val : ℤ) - 1) (j.val : ℤ) else 0)))) := by
            rw [← Finset.sum_add_distrib, ← Finset.sum_add_distrib, ← Finset.sum_add_distrib]
        _ = ∑ i : Fin H, (B.count : ℚ) *
              ((∑ j : Fin W, excess fw p i j * gPot B H W (i.val : ℤ) (j.val : ℤ)) -
               ∑ j : Fin W, excess fw p i j) :=
            Finset.sum_congr rfl fun i _ => inner i
        _ = (B.count : ℚ) * (potE B (excess fw p) - totE (excess fw p)) := by
            rw [← Finset.mul_sum, Finset.sum_sub_distrib]
            rfl
    calc (∑ i, ∑ j, bloomConv B (excess fw p) i j * gPot B H W (i.val : ℤ) (j.val : ℤ))
        = (1 / (B.count : ℚ)) * (_ + _ + _ + _) := expand
      _ ≤ (1 / (B.count : ℚ)) *
          ((∑ i : Fin H, ∑ j : Fin W, excess fw p i j *
            (if B.plusX then gPot B H W (i.val : ℤ) ((j.val : ℤ) + 1) else 0)) +
           (∑ i : Fin H, ∑ j : Fin W, excess fw p i j *
            (if B.minusX then gPot B H W (i.val : ℤ) ((j.val : ℤ) - 1) else 0)) +
           (∑ i : Fin H, ∑ j : Fin W, excess fw p i j *
            (if B.plusY then gPot B H W ((i.val : ℤ) + 1) (j.val : ℤ) else 0)) +
           (∑ i : Fin H, ∑ j : Fin W, excess fw p i j *
            (if B.minusY then gPot B H W ((i.val : ℤ) - 1) (j.val : ℤ) else 0))) := by
          apply mul_le_mul_of_nonneg_left _ (by positivity)
          exact add_le_add (add_le_add (add_le_add b1 b2) b3) b4
      _ = (1 / (B.count : ℚ)) * ((B.count : ℚ) *
            (potE B (excess fw p) - totE (excess fw p))) := by rw [combine]
      _ = potE B (excess fw p) - totE (excess fw p) := by
          field_simp
  exact step1.trans step2

lemma potE_ge_totE (B : BloomDirs) (hB : 0 < B.count) (e : Mat H W)
    (he : ∀ i j, 0 ≤ e i j) : totE e ≤ potE B e := by
  unfold totE potE
  refine Finset.sum_le_sum fun i _ => Finset.sum_le_sum fun j _ => ?_
  have h1 : i.val < H := i.isLt
  have h2 : j.val < W := j.isLt
  have hg := gPot_ge_one (H := H) (W := W) B hB (i.val : ℤ) (j.val : ℤ)
    (by omega) (by omega) (by omega) (by omega)
  exact le_mul_of_one_le_right (he i j) hg

lemma potE_le_mul (B : BloomDirs) (e : Mat H W) (he : ∀ i j, 0 ≤ e i j) :
    potE B e ≤ totE e * gBound H W := by
  unfold totE potE
  rw [Finset.sum_mul]
  refine Finset.sum_le_sum fun i _ => ?_
  rw [Finset.sum_mul]
  refine Finset.sum_le_sum fun j _ => ?_
  have h1 : i.val < H := i.isLt
  have h2 : j.val < W := j.isLt
  exact mul_le_mul_of_nonneg_left
    (gPot_le_gBound (H := H) (W := W) B (i.val : ℤ) (j.val : ℤ)
      (by omega) (by omega) (by omega) (by omega)) (he i j)

/-- Main termination induction: once the potential is at most `n`, at most
`n + 2` further iterations extinguish all excess. -/
lemma excess_zero_after (B : BloomDirs) (hB : 0 < B.count) (fw : ℚ) :
    ∀ (n : ℕ) (p : Mat H W), potE B (excess fw p) ≤ (n : ℚ) →
      excess fw ((bloomStep B fw)^[n + 2] p) = 0 := by
  intro n
  induction n with
  | zero =>
    intro p hpot
    have he := excess_nonneg fw p
    have hsmall : totE (excess fw p) < 1 := by
      have h1 := potE_ge_totE B hB (excess fw p) he
      push_cast at hpot
      linarith
    have h0 := excess_bloomStep_zero_of_small B fw p hsmall
    show excess fw (bloomStep B fw (bloomStep B fw p)) = 0
    rw [bloomStep_fix B fw (bloomStep B fw p) h0]
    exact h0
  | succ n ih =>
    intro p hpot
    have he := excess_nonneg fw p
    by_cases hsmall : totE (excess fw p) < 1
    · have h0 := excess_bloomStep_zero_of_small B fw p hsmall
      rw [(by omega : n + 1 + 2 = (n + 2) + 1), Function.iterate_succ_apply]
      rw [bloomStep_iterate_fix B fw (bloomStep B fw p) h0]
      exact h0
    · push_neg at hsmall
      have hdec := potE_bloomStep B hB fw p
      have hnext : potE B (excess fw (bloomStep B fw p)) ≤ (n : ℚ) := by
        push_cast at hpot
        linarith
      have hres := ih (bloomStep B fw p) hnext
      rw [(by omega : n + 1 + 2 = (n + 2) + 1), Function.iterate_succ_apply]
      exact hres

/-- With fuel `bloomFuel` the loop reaches a state with no excess, i.e. the
source's `while True` loop has terminated by then. -/
lemma bloomLoop_fuel_reaches_fixpoint (B : BloomDirs) (hB : 0 < B.count) (fw : ℚ)
    (p : Mat H W) : excess fw (bloomLoop B fw (bloomFuel B fw p) p) = 0 := by
  rw [bloomLoop_eq_iterate]
  unfold bloomFuel
  apply excess_zero_after B hB fw
  have he := excess_nonneg fw p
  have h1 := potE_le_mul B (excess fw p) he
  have h2 : totE (excess fw p) * gBound H W ≤
      ((⌈totE (excess fw p) * gBound H W⌉ : ℤ) : ℚ) := Int.le_ceil _
  have h3 : ((⌈totE (excess fw p) * gBound H W⌉ : ℤ) : ℚ) ≤
      (((⌈totE (excess fw p) * gBound H W⌉).toNat : ℕ) : ℚ) := by
    exact_mod_cast Int.self_le_toNat _
  linarith

/-- Once the loop has no excess, more fuel changes nothing. -/
lemma bloomLoop_stable (B : BloomDirs) (fw : ℚ) (n : ℕ) (p : Mat H W)
    (h : excess fw (bloomLoop B fw n p) = 0) (m : ℕ) :
    bloomLoop B fw (n + m) p = bloomLoop B fw n p := by
  rw [bloomLoop_eq_iterate, bloomLoop_eq_iterate] at *
  rw [add_comm, Function.iterate_add_apply]
  exact bloomStep_iterate_fix B fw _ h m

lemma excess_mat2 (j : Fin 2) (v : ℚ) (hv : 0 ≤ v) : excess 0 (mat2 j v) = mat2 j v := by
  funext r c
  unfold excess mat2
  split
  · rw [sub_zero, max_eq_right hv]
  · rw [sub_zero, max_eq_right (le_refl 0)]

lemma getE_mat2 (j : Fin 2) (v : ℚ) (y x : ℤ) :
    getE (mat2 j v) y x = if y = 0 ∧ x = (j.val : ℤ) then v else 0 := by
  by_cases hy : 0 ≤ y ∧ y < (1 : ℤ)
  · by_cases hx : 0 ≤ x ∧ x < (2 : ℤ)
    · rw [getE_eq_entry (mat2 j v) hy.1 hy.2 hx.1 hx.2]
      have hy0 : y = 0 := by omega
      unfold mat2
      by_cases hxx : x = (j.val : ℤ)
      · rw [if_pos, if_pos ⟨hy0, hxx⟩]
        exact Fin.ext (show x.toNat = j.val by omega)
      · rw [if_neg, if_neg (by tauto)]
        intro hcon
        have h2 : x.toNat = j.val := congrArg Fin.val hcon
        omega
    · rw [getE_eq_zero _ (by tauto), if_neg]
      rintro ⟨-, h2⟩
      have := j.isLt
      omega
  · rw [getE_eq_zero _ (by tauto), if_neg]
    rintro ⟨h1, -⟩
    omega

lemma bloomStep_mat2 (j : Fin 2) (v : ℚ) (hv : 0 ≤ v) :
    bloomStep bloomLR 0 (mat2 j v) =
      mat2 ⟨1 - j.val, by omega⟩ ((⌊v / 2⌋ : ℤ) : ℚ) := by
  funext r c
  show mat2 j v r c - excess 0 (mat2 j v) r c +
      ((⌊bloomConv bloomLR (excess 0 (mat2 j v)) r c⌋ : ℤ) : ℚ) = _
  rw [excess_mat2 j v hv]
  have hr : r = 0 := Subsingleton.elim r 0
  subst hr
  have hconv : ∀ c' : Fin 2, bloomConv bloomLR (mat2 j v) 0 c' =
      (1 / 2) * ((if (0 : ℤ) = 0 ∧ (c'.val : ℤ) - 1 = (j.val : ℤ) then v else 0) +
        (if (0 : ℤ) = 0 ∧ (c'.val : ℤ) + 1 = (j.val : ℤ) then v else 0)) := by
    intro c'
    unfold bloomConv bloomLR
    rw [getE_mat2, getE_mat2]
    norm_num [BloomDirs.count]
  rw [hconv]
  fin_cases c <;> fin_cases j <;>
    simp [mat2, Fin.ext_iff] <;> norm_num <;>
    rw [show (1 / 2 : ℚ) * v = v / 2 from by ring]


/-- On a 1×2 grid with symmetric horizontal bloom and `full_well = 0`, a
single pile of `2^k` electrons halves once per iteration, alternating
columns: the loop needs about `k` iterations however small the grid is. -/
lemma iterate_mat2_pow (k : ℕ) : ∀ m, m ≤ k → ∃ j : Fin 2,
    (bloomStep bloomLR 0)^[m] (mat2 0 ((2 ^ k : ℕ) : ℚ)) =
      mat2 j ((2 ^ (k - m) : ℕ) : ℚ) := by
  intro m
  induction m with
  | zero => exact fun _ => ⟨0, by simp⟩
  | succ m ih =>
    intro hm
    obtain ⟨j, hj⟩ := ih (by omega)
    refine ⟨⟨1 - j.val, by omega⟩, ?_⟩
    rw [Function.iterate_succ_apply', hj, bloomStep_mat2 j _ (by positivity)]
    have hval : ((2 ^ (k - m) : ℕ) : ℚ) / 2 = ((2 ^ (k - (m + 1)) : ℕ) : ℚ) := by
      have hkm : k - m = (k - (m + 1)) + 1 := by omega
      rw [hkm]
      push_cast [pow_succ]
      ring
    rw [hval, Int.floor_natCast]
    exact congrArg _ (by push_cast; ring)

lemma excess_eq_zero_of_le (fw : ℚ) (p : Mat H W) (h : ∀ i j, p i j ≤ fw) :
    excess fw p = 0 := by
  funext i j
  show max 0 (p i j - fw) = 0
  exact max_eq_left (by linarith [h i j])

/-- Zero-filled lookup of a matrix holding `v` at `(r, c)` and `0`
elsewhere. -/
lemma getE_single {H W : ℕ} (r c : ℕ) (hr : r < H) (hc : c < W) (v : ℚ) (y x : ℤ) :
    getE (H := H) (W := W) (fun i j => if i.val = r ∧ j.val = c then v else 0) y x =
      if y = (r : ℤ) ∧ x = (c : ℤ) then v else 0 := by
  by_cases hy : 0 ≤ y ∧ y < (H : ℤ)
  · by_cases hx : 0 ≤ x ∧ x < (W : ℤ)
    · rw [getE_eq_entry _ hy.1 hy.2 hx.1 hx.2]
      by_cases hyx : y = (r : ℤ) ∧ x = (c : ℤ)
      · rw [if_pos ⟨show y.toNat = r by omega, show x.toNat = c by omega⟩, if_pos hyx]
      · rw [if_neg, if_neg hyx]
        rintro ⟨h1, h2⟩
        have h1' : y.toNat = r := h1
        have h2' : x.toNat = c := h2
        exact hyx ⟨by omega, by omega⟩
    · rw [getE_eq_zero _ (by tauto), if_neg]
      rintro ⟨-, h2⟩
      omega
  · rw [getE_eq_zero _ (by tauto), if_neg]
    rintro ⟨h1, -⟩
    omega

lemma excess_spike {H W : ℕ} (r c k : ℕ) (fw : ℚ) (hfw : 0 ≤ fw) :
    excess fw (spikeMat H W r c fw k) =
      fun i j => if i.val = r ∧ j.val = c then 4 * (k : ℚ) else 0 := by
  funext i j
  unfold excess spikeMat
  split
  · rw [show fw + 4 * (k : ℚ) - fw = 4 * (k : ℚ) from by ring,
      max_eq_right (by positivity)]
  · rw [show (0 : ℚ) - fw = -fw from by ring, max_eq_left (by linarith)]

/-- One symmetric-bloom iteration on a spiked interior pixel: the centre
drops to `full_well` and each orthogonal neighbour gains exactly `k`. -/
lemma bloomStep_spike {H W : ℕ} (r c k : ℕ) (fw : ℚ)
    (hr1 : 1 ≤ r) (hr2 : r + 2 ≤ H) (hc1 : 1 ≤ c) (hc2 : c + 2 ≤ W)
    (hfw : 4 * (k : ℚ) ≤ fw) :
    bloomStep bloomAll fw (spikeMat H W r c fw k) = fun i j =>
      if i.val = r ∧ j.val = c then fw
      else if (i.val = r ∧ (j.val = c + 1 ∨ j.val + 1 = c)) ∨
              ((i.val = r + 1 ∨ i.val + 1 = r) ∧ j.val = c) then (k : ℚ)
      else 0 := by
  have hk0 : (0 : ℚ) ≤ 4 * (k : ℚ) := by positivity
  have hfw0 : 0 ≤ fw := le_trans hk0 hfw
  funext i j
  show spikeMat H W r c fw k i j - excess fw (spikeMat H W r c fw k) i j +
      ((⌊bloomConv bloomAll (excess fw (spikeMat H W r c fw k)) i j⌋ : ℤ) : ℚ) = _
  rw [excess_spike r c k fw hfw0]
  have hconv : bloomConv bloomAll
      (fun i j => if i.val = r ∧ j.val = c then 4 * (k : ℚ) else 0) i j =
      (1 / 4) * ((if (i.val : ℤ) = (r : ℤ) ∧ (j.val : ℤ) - 1 = (c : ℤ) then 4 * (k : ℚ) else 0) +
        (if (i.val : ℤ) = (r : ℤ) ∧ (j.val : ℤ) + 1 = (c : ℤ) then 4 * (k : ℚ) else 0) +
        (if (i.val : ℤ) - 1 = (r : ℤ) ∧ (j.val : ℤ) = (c : ℤ) then 4 * (k : ℚ) else 0) +
        (if (i.val : ℤ) + 1 = (r : ℤ) ∧ (j.val : ℤ) = (c : ℤ) then 4 * (k : ℚ) else 0)) := by
    unfold bloomConv bloomAll
    rw [getE_single r c (by omega) (by omega), getE_single r c (by omega) (by omega),
      getE_single r c (by omega) (by omega), getE_single r c (by omega) (by omega)]
    norm_num [BloomDirs.count]
  rw [hconv]
  unfold spikeMat
  dsimp only
  by_cases h0 : i.val = r ∧ j.val = c
  · rw [if_pos h0, if_pos h0, if_pos h0]
    rw [if_neg (by rintro ⟨-, h⟩; omega), if_neg (by rintro ⟨-, h⟩; omega),
      if_neg (by rintro ⟨h, -⟩; omega), if_neg (by rintro ⟨h, -⟩; omega)]
    norm_num
  · rw [if_neg h0, if_neg h0, if_neg h0]
    by_cases h1 : (i.val = r ∧ (j.val = c + 1 ∨ j.val + 1 = c)) ∨
        ((i.val = r + 1 ∨ i.val + 1 = r) ∧ j.val = c)
    · rw [if_pos h1]
      have hfloor : ∀ q : ℚ, q = (k : ℚ) → ((⌊q⌋ : ℤ) : ℚ) = (k : ℚ) := by
        rintro q rfl
        rw [Int.floor_natCast]
        norm_cast
      rcases h1 with ⟨hi, hj | hj⟩ | ⟨hi | hi, hj⟩
      · rw [if_pos ⟨by omega, by omega⟩, if_neg (by rintro ⟨-, h⟩; omega),
          if_neg (by rintro ⟨h, -⟩; omega), if_neg (by rintro ⟨h, -⟩; omega)]
        rw [hfloor _ (by ring)]
        ring
      · rw [if_neg (by rintro ⟨-, h⟩; omega), if_pos ⟨by omega, by omega⟩,
          if_neg (by rintro ⟨h, -⟩; omega), if_neg (by rintro ⟨h, -⟩; omega)]
        rw [hfloor _ (by ring)]
        ring
      · rw [if_neg (by rintro ⟨-, h⟩; omega), if_neg (by rintro ⟨-, h⟩; omega),
          if_pos ⟨by omega, by omega⟩, if_neg (by rintro ⟨h, -⟩; omega)]
        rw [hfloor _ (by ring)]
        ring
      · rw [if_neg (by rintro ⟨-, h⟩; omega), if_neg (by rintro ⟨-, h⟩; omega),
          if_neg (by rintro ⟨h, -⟩; omega), if_pos ⟨by omega, by omega⟩]
        rw [hfloor _ (by ring)]
        ring
    · rw [if_neg h1]
      rw [if_neg (by rintro ⟨hy, hx⟩; exact h1 (by omega)),
        if_neg (by rintro ⟨hy, hx⟩; exact h1 (by omega)),
        if_neg (by rintro ⟨hy, hx⟩; exact h1 (by omega)),
        if_neg (by rintro ⟨hy, hx⟩; exact h1 (by omega))]
      norm_num

end BloomPotential

section PipelineLemmas

variable {H W : ℕ}

/-- `_applyPSF` only writes to `pixels`; all other sensor fields survive. -/
lemma applyPSF_shape (lens : Lens) :
    ∀ (srcs : List (ℚ × ℚ × ℚ)) (s : Sensor H W) (r : RNG),
      ∃ q, (applyPSF lens s srcs r).2.1 = { s with pixels := q } := by
  intro srcs
  induction srcs with
  | nil => exact fun s r => ⟨s.pixels, rfl⟩
  | cons hd rest ih =>
    rcases hd with ⟨x, y, dose⟩
    intro s r
    show ∃ q, (match poissonList ((srcCounts lens s x y dose).map Prod.snd) r with
      | .error e => (some e, s, r)
      | .ok (ds, r2) =>
        applyPSF lens
          { s with pixels :=
              addListAt s.pixels (((srcCounts lens s x y dose).map Prod.fst).zip ds) }
          rest r2).2.1 = { s with pixels := q }
    cases poissonList ((srcCounts lens s x y dose).map Prod.snd) r with
    | error e => exact ⟨s.pixels, rfl⟩
    | ok pr =>
      obtain ⟨ds, r2⟩ := pr
      obtain ⟨q, hq⟩ := ih
        { s with pixels :=
            addListAt s.pixels (((srcCounts lens s x y dose).map Prod.fst).zip ds) } r2
      exact ⟨q, hq⟩

lemma stageSrc_shape (lens : Lens) (t : ℚ) (xs ys fluxes : List ℚ) (s : Sensor H W)
    (r : RNG) : ∃ q, (stageSrc lens t xs ys fluxes s r).2.1 = { s with pixels := q } := by
  unfold stageSrc
  split
  · exact applyPSF_shape lens _ s r
  · exact ⟨s.pixels, rfl⟩

lemma stageBG_shape (lens : Lens) (t bg : ℚ) (s : Sensor H W) (r : RNG) :
    ∃ q, (stageBG lens t bg s r).2.1 = { s with pixels := q } := by
  unfold stageBG
  cases poissonMat (H := H) (W := W) (fun _ _ => bg * t * lens.area) r with
  | error e => exact ⟨s.pixels, rfl⟩
  | ok pr => exact ⟨_, rfl⟩

lemma stageDark_shape (t temp : ℚ) (s : Sensor H W) (r : RNG) :
    ∃ q, (stageDark t temp s r).2.1 = { s with pixels := q } := by
  unfold stageDark
  cases poissonMat (darkLambda s t temp) r with
  | error e => exact ⟨s.pixels, rfl⟩
  | ok pr => exact ⟨_, rfl⟩

/-- On success, `accumulate` ends by applying the bloom stage to a sensor
that differs from the input only in `pixels`. -/
lemma accumulate_success_shape (s : Sensor H W) (lens : Lens) (t temp : ℚ)
    (xs ys fluxes : List ℚ) (bg : ℚ) (r : RNG)
    (hok : (accumulate s lens t temp xs ys fluxes bg r).1 = none) :
    ∃ q, (accumulate s lens t temp xs ys fluxes bg r).2.1 =
      applyBloomSensor { s with pixels := q } := by
  unfold accumulate at hok ⊢
  obtain ⟨q1, hq1⟩ := stageSrc_shape lens t xs ys fluxes s r
  rcases h1 : stageSrc lens t xs ys fluxes s r with ⟨e1, s1, r1⟩
  rw [h1] at hok hq1
  cases e1 with
  | some e => simp at hok
  | none =>
    dsimp only at hok hq1 ⊢
    obtain ⟨q2, hq2⟩ := stageBG_shape lens t bg s1 r1
    rcases h2 : stageBG lens t bg s1 r1 with ⟨e2, s2, r2⟩
    rw [h2] at hok hq2
    cases e2 with
    | some e => simp at hok
    | none =>
      dsimp only at hok hq2 ⊢
      obtain ⟨q3, hq3⟩ := stageDark_shape t temp s2 r2
      rcases h3 : stageDark t temp s2 r2 with ⟨e3, s3, r3⟩
      rw [h3] at hok hq3
      cases e3 with
      | some e => simp at hok
      | none =>
        dsimp only at hq3 ⊢
        exact ⟨q3, by rw [hq3, hq2, hq1]⟩

lemma addAt_nonneg (p : Mat H W) (hp : ∀ i j, 0 ≤ p i j) (y x : ℤ) (v : ℕ) :
    ∀ i j, 0 ≤ addAt p y x v i j := by
  intro i j
  unfold addAt
  split
  · have : (0 : ℚ) ≤ (v : ℚ) := by positivity
    linarith [hp i j]
  · exact hp i j

lemma addListAt_nonneg : ∀ (L : List ((ℤ × ℤ) × ℕ)) (p : Mat H W),
    (∀ i j, 0 ≤ p i j) → ∀ i j, 0 ≤ addListAt p L i j := by
  intro L
  induction L with
  | nil => exact fun p hp => hp
  | cons hd rest ih =>
    rcases hd with ⟨⟨y, x⟩, v⟩
    intro p hp
    exact ih (addAt p y x v) (addAt_nonneg p hp y x v)

lemma applyPSF_nonneg (lens : Lens) :
    ∀ (srcs : List (ℚ × ℚ × ℚ)) (s : Sensor H W) (r : RNG),
      (∀ i j, 0 ≤ s.pixels i j) →
      ∀ i j, 0 ≤ (applyPSF lens s srcs r).2.1.pixels i j := by
  intro srcs
  induction srcs with
  | nil => exact fun s r hp => hp
  | cons hd rest ih =>
    rcases hd with ⟨x, y, dose⟩
    intro s r hp
    simp only [applyPSF]
    cases hpl : poissonList ((srcCounts lens s x y dose).map Prod.snd) r with
    | error e => exact hp
    | ok pr =>
      obtain ⟨ds, r2⟩ := pr
      exact ih _ r2 (addListAt_nonneg _ s.pixels hp)

lemma stageSrc_nonneg (lens : Lens) (t : ℚ) (xs ys fluxes : List ℚ) (s : Sensor H W)
    (r : RNG) (hp : ∀ i j, 0 ≤ s.pixels i j) :
    ∀ i j, 0 ≤ (stageSrc lens t xs ys fluxes s r).2.1.pixels i j := by
  unfold stageSrc
  split
  · exact applyPSF_nonneg lens _ s r hp
  · exact hp

lemma stageBG_nonneg (lens : Lens) (t bg : ℚ) (s : Sensor H W) (r : RNG)
    (hp : ∀ i j, 0 ≤ s.pixels i j) :
    ∀ i j, 0 ≤ (stageBG lens t bg s r).2.1.pixels i j := by
  unfold stageBG
  cases poissonMat (H := H) (W := W) (fun _ _ => bg * t * lens.area) r with
  | error e => exact hp
  | ok pr =>
    intro i j
    have : (0 : ℚ) ≤ (pr.1 i j : ℚ) := by positivity
    have h2 := hp i j
    show 0 ≤ s.pixels i j + (pr.1 i j : ℚ)
    linarith

lemma stageDark_nonneg (t temp : ℚ) (s : Sensor H W) (r : RNG)
    (hp : ∀ i j, 0 ≤ s.pixels i j) :
    ∀ i j, 0 ≤ (stageDark t temp s r).2.1.pixels i j := by
  unfold stageDark
  cases poissonMat (darkLambda s t temp) r with
  | error e => exact hp
  | ok pr =>
    intro i j
    have : (0 : ℚ) ≤ (pr.1 i j : ℚ) := by positivity
    have h2 := hp i j
    show 0 ≤ s.pixels i j + (pr.1 i j : ℚ)
    linarith

lemma applyBloomSensor_nonneg (s : Sensor H W) (hfw : 0 ≤ s.full_well)
    (hp : ∀ i j, 0 ≤ s.pixels i j) :
    ∀ i j, 0 ≤ (applyBloomSensor s).pixels i j := by
  unfold applyBloomSensor
  split
  · intro i j
    exact le_min (hp i j) hfw
  · exact bloomLoop_nonneg s.bloom s.full_well hfw _ s.pixels hp

lemma poissonMat_ok (lam : Fin H → Fin W → ℚ) (r : RNG) (h : ∀ i j, 0 ≤ lam i j) :
    poissonMat lam r = .ok (noiseMat r, ⟨r.gen, r.idx + H * W⟩) := by
  unfold poissonMat
  rw [if_neg]
  push_neg
  exact fun i j => h i j

lemma poissonMat_err (lam : Fin H → Fin W → ℚ) (r : RNG) (h : ∃ i j, lam i j < 0) :
    poissonMat lam r = .error .negativeMean := by
  unfold poissonMat
  rw [if_pos h]

lemma stageBG_ok (lens : Lens) (t bg : ℚ) (s : Sensor H W) (r : RNG)
    (h : 0 ≤ bg * t * lens.area) :
    stageBG lens t bg s r = (none,
      { s with pixels := fun i j => s.pixels i j + ((noiseMat r : Fin H → Fin W → ℕ) i j : ℚ) },
      ⟨r.gen, r.idx + H * W⟩) := by
  unfold stageBG
  rw [poissonMat_ok _ r (fun _ _ => h)]

lemma stageDark_ok (t temp : ℚ) (s : Sensor H W) (r : RNG)
    (h : ∀ i j, 0 ≤ darkLambda s t temp i j) :
    stageDark t temp s r = (none,
      { s with pixels := fun i j => s.pixels i j + ((noiseMat r : Fin H → Fin W → ℕ) i j : ℚ) },
      ⟨r.gen, r.idx + H * W⟩) := by
  unfold stageDark
  rw [poissonMat_ok _ r h]

lemma stageDark_err (t temp : ℚ) (s : Sensor H W) (r : RNG)
    (h : ∃ i j, darkLambda s t temp i j < 0) :
    stageDark t temp s r = (some .negativeMean, s, r) := by
  unfold stageDark
  rw [poissonMat_err _ r h]

lemma stageSrc_empty (lens : Lens) (t : ℚ) (xs ys : List ℚ) (s : Sensor H W) (r : RNG) :
    stageSrc lens t xs ys [] s r = (none, s, r) := by
  unfold stageSrc
  rw [if_neg (by simp)]

lemma readout_ok (s : Sensor H W) (r : RNG) (h : 0 ≤ s.read_noise) :
    readout s r = (none,
      fun i j => min (⌊(s.pixels i j + ((noiseMat r : Fin H → Fin W → ℕ) i j : ℚ)) * s.gain⌋ +
        s.bias i j) s.adc_limit,
      { s with pixels := fun i j => s.pixels i j + ((noiseMat r : Fin H → Fin W → ℕ) i j : ℚ) },
      ⟨r.gen, r.idx + H * W⟩) := by
  unfold readout
  rw [poissonMat_ok _ r (fun _ _ => h)]

lemma rowMajor_lt (i : Fin H) (j : Fin W) : i.val * W + j.val < H * W := by
  calc i.val * W + j.val < i.val * W + W := by have := j.isLt; omega
    _ = (i.val + 1) * W := by ring
    _ ≤ H * W := Nat.mul_le_mul_right W i.isLt

lemma noiseMat_congr (g1 g2 : ℕ → ℕ) (n : ℕ) (hag : agreeBelow g1 g2 (n + H * W)) :
    (noiseMat ⟨g1, n⟩ : Fin H → Fin W → ℕ) = noiseMat ⟨g2, n⟩ := by
  funext i j
  exact hag (n + i.val * W + j.val) (by have := rowMajor_lt i j; omega)

lemma poissonMat_det (lam : Fin H → Fin W → ℚ) (g1 g2 : ℕ → ℕ) (n : ℕ)
    (hag : agreeBelow g1 g2 (n + H * W)) :
    poissonMat lam (⟨g2, n⟩ : RNG) =
      Except.map (fun pr => (pr.1, (⟨g2, n + H * W⟩ : RNG))) (poissonMat lam ⟨g1, n⟩) := by
  unfold poissonMat
  by_cases hc : ∃ i j, lam i j < 0
  · rw [if_pos hc, if_pos hc]
    rfl
  · rw [if_neg hc, if_neg hc]
    show Except.ok ((noiseMat ⟨g2, n⟩ : Fin H → Fin W → ℕ), (⟨g2, n + H * W⟩ : RNG)) = _
    rw [← noiseMat_congr g1 g2 n hag]
    rfl

lemma poissonList_det (lams : List ℚ) (g1 g2 : ℕ → ℕ) (n : ℕ)
    (hag : agreeBelow g1 g2 (n + lams.length)) :
    poissonList lams (⟨g2, n⟩ : RNG) =
      Except.map (fun pr => (pr.1, (⟨g2, n + lams.length⟩ : RNG))) (poissonList lams ⟨g1, n⟩) := by
  unfold poissonList
  by_cases hc : lams.any (fun q => q < 0)
  · rw [if_pos hc, if_pos hc]
    rfl
  · rw [if_neg hc, if_neg hc]
    show Except.ok ((List.range lams.length).map (fun t => g2 (n + t)), _) = _
    have hmap : (List.range lams.length).map (fun t => g2 (n + t)) =
        (List.range lams.length).map (fun t => g1 (n + t)) := by
      apply List.map_congr_left
      intro t ht
      rw [List.mem_range] at ht
      exact (hag (n + t) (by omega)).symm
    rw [hmap]
    rfl

lemma poissonList_ok_rng (lams : List ℚ) (r : RNG) (pr : List ℕ × RNG)
    (h : poissonList lams r = .ok pr) : pr.2 = ⟨r.gen, r.idx + lams.length⟩ := by
  unfold poissonList at h
  split at h
  · simp at h
  · cases h
    rfl

lemma applyPSF_rng (lens : Lens) : ∀ (srcs : List (ℚ × ℚ × ℚ)) (s : Sensor H W) (r : RNG),
    r.idx ≤ (applyPSF lens s srcs r).2.2.idx ∧ (applyPSF lens s srcs r).2.2.gen = r.gen := by
  intro srcs
  induction srcs with
  | nil => exact fun s r => ⟨le_refl _, rfl⟩
  | cons hd rest ih =>
    rcases hd with ⟨x, y, dose⟩
    intro s r
    simp only [applyPSF]
    cases hpl : poissonList ((srcCounts lens s x y dose).map Prod.snd) r with
    | error e => exact ⟨le_refl _, rfl⟩
    | ok pr =>
      obtain ⟨ds, r2⟩ := pr
      have hr2 : r2 = ⟨r.gen, r.idx + ((srcCounts lens s x y dose).map Prod.snd).length⟩ :=
        poissonList_ok_rng _ r (ds, r2) hpl
      obtain ⟨h1, h2⟩ := ih
        { s with pixels :=
            addListAt s.pixels (((srcCounts lens s x y dose).map Prod.fst).zip ds) } r2
      refine ⟨?_, ?_⟩
      · refine le_trans ?_ h1
        rw [hr2]
        exact Nat.le_add_right _ _
      · rw [h2, hr2]

lemma applyPSF_det (lens : Lens) : ∀ (srcs : List (ℚ × ℚ × ℚ)) (s : Sensor H W)
    (g1 g2 : ℕ → ℕ) (n : ℕ),
    agreeBelow g1 g2 ((applyPSF lens s srcs ⟨g1, n⟩).2.2.idx) →
    applyPSF lens s srcs ⟨g2, n⟩ =
      ((applyPSF lens s srcs ⟨g1, n⟩).1, (applyPSF lens s srcs ⟨g1, n⟩).2.1,
        ⟨g2, (applyPSF lens s srcs ⟨g1, n⟩).2.2.idx⟩) := by
  intro srcs
  induction srcs with
  | nil => exact fun s g1 g2 n _ => rfl
  | cons hd rest ih =>
    rcases hd with ⟨x, y, dose⟩
    intro s g1 g2 n hag
    simp only [applyPSF] at hag ⊢
    cases hpl : poissonList ((srcCounts lens s x y dose).map Prod.snd) ⟨g1, n⟩ with
    | error e =>
      have hpl2 : poissonList ((srcCounts lens s x y dose).map Prod.snd) ⟨g2, n⟩ =
          .error e := by
        have hc : ((srcCounts lens s x y dose).map Prod.snd).any (fun q => q < 0) = true := by
          by_contra hc
          unfold poissonList at hpl
          rw [if_neg hc] at hpl
          simp at hpl
        have he : e = .negativeMean := by
          have h2 : poissonList ((srcCounts lens s x y dose).map Prod.snd) ⟨g1, n⟩ =
              .error .negativeMean := by
            unfold poissonList
            rw [if_pos hc]
          exact Except.error.inj (hpl.symm.trans h2)
        unfold poissonList
        rw [if_pos hc, he]
      rw [hpl2]
    | ok pr =>
      obtain ⟨ds, r2⟩ := pr
      have hr2 : r2 = ⟨g1, n + ((srcCounts lens s x y dose).map Prod.snd).length⟩ :=
        poissonList_ok_rng _ _ (ds, r2) hpl
      subst hr2
      rw [hpl] at hag
      dsimp only at hag ⊢
      have hmono := (applyPSF_rng lens rest
        { s with pixels :=
            addListAt s.pixels (((srcCounts lens s x y dose).map Prod.fst).zip ds) }
        ⟨g1, n + ((srcCounts lens s x y dose).map Prod.snd).length⟩).1
      have hpl2 : poissonList ((srcCounts lens s x y dose).map Prod.snd) ⟨g2, n⟩ =
          .ok (ds, ⟨g2, n + ((srcCounts lens s x y dose).map Prod.snd).length⟩) := by
        rw [poissonList_det _ g1 g2 n (fun i hi => hag i (lt_of_lt_of_le hi hmono)), hpl]
        rfl
      rw [hpl2]
      dsimp only
      exact ih _ g1 g2 _ hag

lemma poissonMat_ok_rng (lam : Fin H → Fin W → ℚ) (r : RNG) (pr)
    (h : poissonMat lam r = .ok pr) : pr.2 = ⟨r.gen, r.idx + H * W⟩ := by
  unfold poissonMat at h
  split at h
  · simp at h
  · rw [← Except.ok.inj h]

lemma poissonMat_err_congr (lam : Fin H → Fin W → ℚ) (r1 r2 : RNG) (e : SimError)
    (h : poissonMat lam r1 = .error e) : poissonMat lam r2 = .error e := by
  cases e
  unfold poissonMat at h ⊢
  split at h
  · rename_i hc
    rw [if_pos hc]
  · simp at h

lemma stageSrc_rng (lens : Lens) (t : ℚ) (xs ys fluxes : List ℚ) (s : Sensor H W)
    (r : RNG) : r.idx ≤ (stageSrc lens t xs ys fluxes s r).2.2.idx ∧
      (stageSrc lens t xs ys fluxes s r).2.2.gen = r.gen := by
  unfold stageSrc
  split
  · exact applyPSF_rng lens _ s r
  · exact ⟨le_refl _, rfl⟩

lemma stageSrc_det (lens : Lens) (t : ℚ) (xs ys fluxes : List ℚ) (s : Sensor H W)
    (g1 g2 : ℕ → ℕ) (n : ℕ)
    (hag : agreeBelow g1 g2 ((stageSrc lens t xs ys fluxes s ⟨g1, n⟩).2.2.idx)) :
    stageSrc lens t xs ys fluxes s ⟨g2, n⟩ =
      ((stageSrc lens t xs ys fluxes s ⟨g1, n⟩).1,
       (stageSrc lens t xs ys fluxes s ⟨g1, n⟩).2.1,
       ⟨g2, (stageSrc lens t xs ys fluxes s ⟨g1, n⟩).2.2.idx⟩) := by
  unfold stageSrc at hag ⊢
  by_cases hc : 0 < fluxes.length
  · simp only [if_pos hc] at hag ⊢
    exact applyPSF_det lens _ s g1 g2 n hag
  · simp only [if_neg hc] at hag ⊢

lemma stageBG_rng (lens : Lens) (t bg : ℚ) (s : Sensor H W) (r : RNG) :
    r.idx ≤ (stageBG lens t bg s r).2.2.idx ∧
      (stageBG lens t bg s r).2.2.gen = r.gen := by
  unfold stageBG
  cases hm : poissonMat (H := H) (W := W) (fun _ _ => bg * t * lens.area) r with
  | error e => exact ⟨le_refl _, rfl⟩
  | ok pr =>
    have h2 := poissonMat_ok_rng _ r pr hm
    rw [h2]
    exact ⟨Nat.le_add_right _ _, rfl⟩

lemma stageBG_det (lens : Lens) (t bg : ℚ) (s : Sensor H W) (g1 g2 : ℕ → ℕ) (n : ℕ)
    (hag : agreeBelow g1 g2 ((stageBG lens t bg s ⟨g1, n⟩).2.2.idx)) :
    stageBG lens t bg s ⟨g2, n⟩ =
      ((stageBG lens t bg s ⟨g1, n⟩).1, (stageBG lens t bg s ⟨g1, n⟩).2.1,
       ⟨g2, (stageBG lens t bg s ⟨g1, n⟩).2.2.idx⟩) := by
  unfold stageBG at hag ⊢
  cases hm : poissonMat (H := H) (W := W) (fun _ _ => bg * t * lens.area) ⟨g1, n⟩ with
  | error e =>
    rw [poissonMat_err_congr _ _ ⟨g2, n⟩ e hm]
  | ok pr =>
    rw [hm] at hag
    dsimp only at hag ⊢
    have hpr2 := poissonMat_ok_rng _ _ pr hm
    rw [hpr2] at hag ⊢
    dsimp only at hag ⊢
    have hm2 : poissonMat (H := H) (W := W) (fun _ _ => bg * t * lens.area) ⟨g2, n⟩ =
        .ok (pr.1, ⟨g2, n + H * W⟩) := by
      rw [poissonMat_det _ g1 g2 n hag, hm]
      rfl
    rw [hm2]

lemma stageDark_rng (t temp : ℚ) (s : Sensor H W) (r : RNG) :
    r.idx ≤ (stageDark t temp s r).2.2.idx ∧
      (stageDark t temp s r).2.2.gen = r.gen := by
  unfold stageDark
  cases hm : poissonMat (darkLambda s t temp) r with
  | error e => exact ⟨le_refl _, rfl⟩
  | ok pr =>
    have h2 := poissonMat_ok_rng _ r pr hm
    rw [h2]
    exact ⟨Nat.le_add_right _ _, rfl⟩

lemma stageDark_det (t temp : ℚ) (s : Sensor H W) (g1 g2 : ℕ → ℕ) (n : ℕ)
    (hag : agreeBelow g1 g2 ((stageDark t temp s ⟨g1, n⟩).2.2.idx)) :
    stageDark t temp s ⟨g2, n⟩ =
      ((stageDark t temp s ⟨g1, n⟩).1, (stageDark t temp s ⟨g1, n⟩).2.1,
       ⟨g2, (stageDark t temp s ⟨g1, n⟩).2.2.idx⟩) := by
  unfold stageDark at hag ⊢
  cases hm : poissonMat (darkLambda s t temp) ⟨g1, n⟩ with
  | error e =>
    rw [poissonMat_err_congr _ _ ⟨g2, n⟩ e hm]
  | ok pr =>
    rw [hm] at hag
    dsimp only at hag ⊢
    have hpr2 := poissonMat_ok_rng _ _ pr hm
    rw [hpr2] at hag ⊢
    dsimp only at hag ⊢
    have hm2 : poissonMat (darkLambda s t temp) ⟨g2, n⟩ =
        .ok (pr.1, ⟨g2, n + H * W⟩) := by
      rw [poissonMat_det _ g1 g2 n hag, hm]
      rfl
    rw [hm2]

lemma accumulate_rng (s : Sensor H W) (lens : Lens) (t temp : ℚ)
    (xs ys fluxes : List ℚ) (bg : ℚ) (r : RNG) :
    r.idx ≤ (accumulate s lens t temp xs ys fluxes bg r).2.2.idx ∧
      (accumulate s lens t temp xs ys fluxes bg r).2.2.gen = r.gen := by
  unfold accumulate
  have hs1 := stageSrc_rng lens t xs ys fluxes s r
  rcases h1 : stageSrc lens t xs ys fluxes s r with ⟨e1, s1, r1⟩
  rw [h1] at hs1
  cases e1 with
  | some e => exact hs1
  | none =>
    dsimp only
    have hs2 := stageBG_rng lens t bg s1 r1
    rcases h2 : stageBG lens t bg s1 r1 with ⟨e2, s2, r2⟩
    rw [h2] at hs2
    cases e2 with
    | some e => exact ⟨le_trans hs1.1 hs2.1, hs2.2.trans hs1.2⟩
    | none =>
      dsimp only
      have hs3 := stageDark_rng t temp s2 r2
      rcases h3 : stageDark t temp s2 r2 with ⟨e3, s3, r3⟩
      rw [h3] at hs3
      cases e3 with
      | some e => exact ⟨le_trans (le_trans hs1.1 hs2.1) hs3.1, (hs3.2.trans hs2.2).trans hs1.2⟩
      | none => exact ⟨le_trans (le_trans hs1.1 hs2.1) hs3.1, (hs3.2.trans hs2.2).trans hs1.2⟩

lemma accumulate_det (s : Sensor H W) (lens : Lens) (t temp : ℚ)
    (xs ys fluxes : List ℚ) (bg : ℚ) (g1 g2 : ℕ → ℕ) (n : ℕ)
    (hag : agreeBelow g1 g2 ((accumulate s lens t temp xs ys fluxes bg ⟨g1, n⟩).2.2.idx)) :
    accumulate s lens t temp xs ys fluxes bg ⟨g2, n⟩ =
      ((accumulate s lens t temp xs ys fluxes bg ⟨g1, n⟩).1,
       (accumulate s lens t temp xs ys fluxes bg ⟨g1, n⟩).2.1,
       ⟨g2, (accumulate s lens t temp xs ys fluxes bg ⟨g1, n⟩).2.2.idx⟩) := by
  unfold accumulate at hag ⊢
  have hs1 := stageSrc_rng lens t xs ys fluxes s ⟨g1, n⟩
  rcases h1 : stageSrc lens t xs ys fluxes s ⟨g1, n⟩ with ⟨e1, s1, rg1, ri1⟩
  rw [h1] at hag hs1
  have hg1 : g1 = rg1 := hs1.2.symm
  subst hg1
  cases e1 with
  | some e =>
    have hd1 := stageSrc_det lens t xs ys fluxes s g1 g2 n (by rw [h1]; exact hag)
    rw [h1] at hd1
    rw [hd1]
  | none =>
    dsimp only at hag ⊢
    have hs2 := stageBG_rng lens t bg s1 ⟨g1, ri1⟩
    rcases h2 : stageBG lens t bg s1 ⟨g1, ri1⟩ with ⟨e2, s2, rg2, ri2⟩
    rw [h2] at hag hs2
    have hg2 : g1 = rg2 := hs2.2.symm
    subst hg2
    cases e2 with
    | some e =>
      have hd1 := stageSrc_det lens t xs ys fluxes s g1 g2 n
        (by rw [h1]; exact fun i hi => hag i (lt_of_lt_of_le hi hs2.1))
      rw [h1] at hd1
      rw [hd1]
      dsimp only
      have hd2 := stageBG_det lens t bg s1 g1 g2 ri1 (by rw [h2]; exact hag)
      rw [h2] at hd2
      rw [hd2]
    | none =>
      dsimp only at hag ⊢
      have hs3 := stageDark_rng t temp s2 ⟨g1, ri2⟩
      rcases h3 : stageDark t temp s2 ⟨g1, ri2⟩ with ⟨e3, s3, rg3, ri3⟩
      rw [h3] at hag hs3
      have hg3 : g1 = rg3 := hs3.2.symm
      subst hg3
      cases e3
      all_goals
        dsimp only at hag hs3 ⊢
        have hd1 := stageSrc_det lens t xs ys fluxes s g1 g2 n
          (by rw [h1]; exact fun i hi => hag i (lt_of_lt_of_le hi (le_trans hs2.1 hs3.1)))
        rw [h1] at hd1
        have hd2 := stageBG_det lens t bg s1 g1 g2 ri1
          (by rw [h2]; exact fun i hi => hag i (lt_of_lt_of_le hi hs3.1))
        rw [h2] at hd2
        have hd3 := stageDark_det t temp s2 g1 g2 ri2 (by rw [h3]; exact hag)
        rw [h3] at hd3
        rw [hd1]
        dsimp only
        rw [hd2]
        dsimp only
        rw [hd3]

lemma readout_rng (s : Sensor H W) (r : RNG) :
    r.idx ≤ (readout s r).2.2.2.idx ∧ (readout s r).2.2.2.gen = r.gen := by
  unfold readout
  cases hm : poissonMat (H := H) (W := W) (fun _ _ => s.read_noise) r with
  | error e => exact ⟨le_refl _, rfl⟩
  | ok pr =>
    have h2 := poissonMat_ok_rng _ r pr hm
    rw [h2]
    exact ⟨Nat.le_add_right _ _, rfl⟩

lemma readout_det (s : Sensor H W) (g1 g2 : ℕ → ℕ) (n : ℕ)
    (hag : agreeBelow g1 g2 ((readout s ⟨g1, n⟩).2.2.2.idx)) :
    readout s ⟨g2, n⟩ =
      ((readout s ⟨g1, n⟩).1, (readout s ⟨g1, n⟩).2.1, (readout s ⟨g1, n⟩).2.2.1,
       ⟨g2, (readout s ⟨g1, n⟩).2.2.2.idx⟩) := by
  unfold readout at hag ⊢
  cases hm : poissonMat (H := H) (W := W) (fun _ _ => s.read_noise) ⟨g1, n⟩ with
  | error e =>
    rw [poissonMat_err_congr _ _ ⟨g2, n⟩ e hm]
  | ok pr =>
    rw [hm] at hag
    dsimp only at hag ⊢
    have hpr2 := poissonMat_ok_rng _ _ pr hm
    rw [hpr2] at hag ⊢
    dsimp only at hag ⊢
    have hm2 : poissonMat (H := H) (W := W) (fun _ _ => s.read_noise) ⟨g2, n⟩ =
        .ok (pr.1, ⟨g2, n + H * W⟩) := by
      rw [poissonMat_det _ g1 g2 n hag, hm]
      rfl
    rw [hm2]

end PipelineLemmas

section Claims

/-- Claim C1, counterexample: the per-pixel quadrature sample count is NOT
chosen so that the trapezoidal step `px_len / (nx - 1)` is at most
`psf_resolution`: with `px_len_x = 3` and `psf_resolution = 2` the source
computes `nx = max(2, ceil(3/2)) = 2`, giving step `3/(2-1) = 3 > 2`. -/
theorem nSamp_step_counterexample :
    nSamp 3 2 = 2 ∧ ¬ ((3 : ℚ) / ((nSamp 3 2 : ℚ) - 1) ≤ 2) := by
  have h : nSamp 3 2 = 2 := by
    have hc : ⌈(3 : ℚ) / 2⌉ = 2 := by
      rw [Int.ceil_eq_iff]
      norm_num
    unfold nSamp
    rw [hc]
    rfl
  refine ⟨h, ?_⟩
  rw [h]
  norm_num

/-- Claim C1, amended: `nx = max(2, ceil(px_len / psf_resolution))` enforces
a floor of two samples and guarantees `px_len / nx ≤ psf_resolution`; the
actual trapezoidal step `px_len / (nx - 1)` can exceed `psf_resolution`
(see the counterexample), by a factor of at most `nx / (nx - 1)`. -/
theorem nSamp_spacing_bound (len res : ℚ) (hlen : 0 < len) (hres : 0 < res) :
    2 ≤ nSamp len res ∧ len / (nSamp len res : ℚ) ≤ res := by
  have hceil : len / res ≤ (⌈len / res⌉ : ℚ) := Int.le_ceil _
  have h2 : 2 ≤ nSamp len res := by
    unfold nSamp
    have hmax : (2 : ℤ) ≤ max 2 ⌈len / res⌉ := le_max_left _ _
    omega
  refine ⟨h2, ?_⟩
  have h3 : len / res ≤ (nSamp len res : ℚ) := by
    unfold nSamp
    have hmax : (⌈len / res⌉ : ℤ) ≤ max 2 ⌈len / res⌉ := le_max_right _ _
    have hnn : (0 : ℤ) ≤ max 2 ⌈len / res⌉ := by
      have := le_max_left (2 : ℤ) ⌈len / res⌉
      omega
    calc len / res ≤ (⌈len / res⌉ : ℚ) := hceil
      _ ≤ ((max 2 ⌈len / res⌉ : ℤ) : ℚ) := by exact_mod_cast hmax
      _ = (((max 2 ⌈len / res⌉).toNat : ℕ) : ℚ) := by
          rw [← Int.toNat_of_nonneg hnn]
          push_cast
          rw [Int.toNat_of_nonneg hnn]
  have hn : (0 : ℚ) < (nSamp len res : ℚ) := by
    have : (0 : ℕ) < nSamp len res := by omega
    exact_mod_cast this
  rw [div_le_iff hn]
  have hmul := mul_le_mul_of_nonneg_right h3 (le_of_lt hres)
  rw [div_mul_cancel₀ len (ne_of_gt hres)] at hmul
  linarith

/-- Claim C1, witness: at `px_len = 3`, `psf_resolution = 2` the amended
bound holds with `nx = 2`. -/
theorem nSamp_spacing_bound_witness :
    ((0 : ℚ) < 3 ∧ (0 : ℚ) < 2) ∧
      (2 ≤ nSamp 3 2 ∧ (3 : ℚ) / (nSamp 3 2 : ℚ) ≤ 2) :=
  ⟨⟨by norm_num, by norm_num⟩, nSamp_spacing_bound 3 2 (by norm_num) (by norm_num)⟩

/-- Claim C2, counterexample: `accumulate` is not all-or-nothing.  On a 1×1
sensor with `dark_current ≡ -1`, unit background flux and a generator that
always draws `1`, the call raises the negative-mean error at the
dark-current stage, yet the buffer already holds the electron added by the
background stage: the final pixel is `1`, not the initial `0`. -/
theorem accumulate_partial_write_counterexample :
    (accumulate (constSensor 1 1 0 0 noBloom (fun _ => -1)) lens1 1 0 [] [] [] 1
      (rngConst 1)).1 = some SimError.negativeMean ∧
    (accumulate (constSensor 1 1 0 0 noBloom (fun _ => -1)) lens1 1 0 [] [] [] 1
      (rngConst 1)).2.1.pixels 0 0 = 1 ∧
    (constSensor 1 1 0 0 noBloom (fun _ => -1)).pixels 0 0 = 0 := by
  have hrun : accumulate (constSensor 1 1 0 0 noBloom (fun _ => -1)) lens1 1 0 [] [] [] 1
      (rngConst 1) =
      (some SimError.negativeMean,
       { constSensor 1 1 0 0 noBloom (fun _ => -1) with
          pixels := fun i j => (constSensor 1 1 0 0 noBloom (fun _ => -1)).pixels i j +
            ((noiseMat (rngConst 1) : Fin 1 → Fin 1 → ℕ) i j : ℚ) },
       ⟨(rngConst 1).gen, (rngConst 1).idx + 1 * 1⟩) := by
    unfold accumulate
    rw [stageSrc_empty]
    dsimp only
    rw [stageBG_ok lens1 1 1 (constSensor 1 1 0 0 noBloom (fun _ => -1)) (rngConst 1)
      (by norm_num [lens1])]
    dsimp only
    rw [stageDark_err 1 0
      { constSensor 1 1 0 0 noBloom (fun _ => -1) with
          pixels := fun i j => (constSensor 1 1 0 0 noBloom (fun _ => -1)).pixels i j +
            ((noiseMat (rngConst 1) : Fin 1 → Fin 1 → ℕ) i j : ℚ) }
      ⟨(rngConst 1).gen, (rngConst 1).idx + 1 * 1⟩
      ⟨0, 0, by norm_num [darkLambda, constSensor, darkConvFactor]⟩]
  rw [hrun]
  refine ⟨rfl, ?_, rfl⟩
  norm_num [constSensor, noiseMat, rngConst]

/-- Claim C2, amended: validation is not up-front; a failure surfaces at the
stage that computes the offending mean, after earlier stages have already
written to `pixels`.  Concretely, with no sources, a valid background mean,
and a negative dark-current mean, `accumulate` reports the error and leaves
the buffer holding the background stage's writes. -/
theorem accumulate_dark_failure_keeps_writes {H W : ℕ} (s : Sensor H W) (lens : Lens)
    (t temp : ℚ) (xs ys : List ℚ) (bg : ℚ) (r : RNG)
    (hbg : 0 ≤ bg * t * lens.area)
    (hdark : ∃ i j, darkLambda s t temp i j < 0) :
    accumulate s lens t temp xs ys [] bg r =
      (some SimError.negativeMean,
       { s with pixels := fun i j => s.pixels i j +
          ((noiseMat r : Fin H → Fin W → ℕ) i j : ℚ) },
       ⟨r.gen, r.idx + H * W⟩) := by
  unfold accumulate
  rw [stageSrc_empty]
  dsimp only
  rw [stageBG_ok lens t bg s r hbg]
  dsimp only
  rw [stageDark_err t temp
    { s with pixels := fun i j => s.pixels i j + ((noiseMat r : Fin H → Fin W → ℕ) i j : ℚ) }
    ⟨r.gen, r.idx + H * W⟩ hdark]

/-- Claim C2, witness: the amended description applied at the concrete
counterexample input. -/
theorem accumulate_dark_failure_keeps_writes_witness :
    (0 ≤ (1 : ℚ) * 1 * lens1.area ∧
      ∃ i j, darkLambda (constSensor 1 1 0 0 noBloom (fun _ => -1)) 1 0 i j < 0) ∧
    (accumulate (constSensor 1 1 0 0 noBloom (fun _ => -1)) lens1 1 0 [] [] [] 1
        (rngConst 1)).1 = some SimError.negativeMean := by
  have hbg : 0 ≤ (1 : ℚ) * 1 * lens1.area := by norm_num [lens1]
  have hdark : ∃ i j, darkLambda (constSensor 1 1 0 0 noBloom (fun _ => -1)) 1 0 i j < 0 :=
    ⟨0, 0, by norm_num [darkLambda, constSensor, darkConvFactor]⟩
  refine ⟨⟨hbg, hdark⟩, ?_⟩
  rw [accumulate_dark_failure_keeps_writes (constSensor 1 1 0 0 noBloom (fun _ => -1)) lens1 1 0
    [] [] 1 (rngConst 1) hbg hdark]

/-- Claim C3, counterexample: no iteration bound of the form
`C * max(width_px, height_px)` covers every finite non-negative initial
buffer: on the fixed 1×2 grid with symmetric horizontal bloom and
`full_well = 0`, a pile of `2^(2C+1)` electrons still has positive excess
after `C * max(2, 1)` iterations, for every `C`. -/
theorem bloom_iteration_bound_counterexample :
    ¬ ∃ C : ℕ, ∀ (H W : ℕ) (B : BloomDirs) (fw : ℚ) (p : Mat H W),
      0 < B.count → (∀ i j, 0 ≤ p i j) →
      excess fw (bloomLoop B fw (C * max W H) p) = 0 := by
  rintro ⟨C, hC⟩
  have hp : ∀ i j, (0 : ℚ) ≤ mat2 0 ((2 ^ (2 * C + 1) : ℕ) : ℚ) i j := by
    intro i j
    unfold mat2
    split
    · positivity
    · exact le_refl 0
  have hrun := hC 1 2 bloomLR 0 (mat2 0 ((2 ^ (2 * C + 1) : ℕ) : ℚ)) (by decide) hp
  rw [bloomLoop_eq_iterate] at hrun
  obtain ⟨j, hj⟩ := iterate_mat2_pow (2 * C + 1) (C * max 2 1) (by simp; omega)
  rw [hj] at hrun
  have hval : (0 : ℚ) < ((2 ^ (2 * C + 1 - C * max 2 1) : ℕ) : ℚ) := by positivity
  rw [excess_mat2 _ _ (le_of_lt hval)] at hrun
  have hzero := congrFun (congrFun hrun 0) j
  unfold mat2 at hzero
  rw [if_pos rfl] at hzero
  simp only [Pi.zero_apply] at hzero
  exact absurd hzero (ne_of_gt hval)

/-- Claim C3, amended: for every finite non-negative initial buffer and
non-empty bloom set the loop does terminate, but within a number of
iterations that grows with the initial charge, not within
`O(max(width_px, height_px))`: `bloomFuel`, essentially the total initial
excess times `(W+1)^2 + (H+1)^2`, plus two, always suffices, and once the
excess is gone further iterations change nothing. -/
theorem bloom_terminates {H W : ℕ} (B : BloomDirs) (fw : ℚ) (p : Mat H W)
    (hB : 0 < B.count) (_hp : ∀ i j, 0 ≤ p i j) :
    excess fw (bloomLoop B fw (bloomFuel B fw p) p) = 0 ∧
    ∀ m : ℕ, bloomLoop B fw (bloomFuel B fw p + m) p =
      bloomLoop B fw (bloomFuel B fw p) p := by
  have h1 := bloomLoop_fuel_reaches_fixpoint B hB fw p
  exact ⟨h1, fun m => bloomLoop_stable B fw _ p h1 m⟩

/-- Claim C3, witness: the amended termination statement at a concrete
state, a 1×2 buffer holding four electrons over a zero full well. -/
theorem bloom_terminates_witness :
    (0 < bloomLR.count ∧ ∀ i j, (0 : ℚ) ≤ mat2 0 4 i j) ∧
    excess 0 (bloomLoop bloomLR 0 (bloomFuel bloomLR 0 (mat2 0 4)) (mat2 0 4)) = 0 :=
  ⟨⟨by decide, by decide⟩,
   (bloom_terminates bloomLR 0 (mat2 0 4) (by decide) (by decide)).1⟩

/-- Claim C4: with an empty bloom set, a successful `accumulate` ends with
the clip `pixels ← min(pixels, full_well)`, so every pixel is at most
`full_well` afterwards. -/
theorem accumulate_no_bloom_clip {H W : ℕ} (s : Sensor H W) (lens : Lens) (t temp : ℚ)
    (xs ys fluxes : List ℚ) (bg : ℚ) (r : RNG) (hB : s.bloom.count = 0)
    (hok : (accumulate s lens t temp xs ys fluxes bg r).1 = none) :
    ∀ i j, (accumulate s lens t temp xs ys fluxes bg r).2.1.pixels i j ≤ s.full_well := by
  obtain ⟨q, hq⟩ := accumulate_success_shape s lens t temp xs ys fluxes bg r hok
  rw [hq]
  intro i j
  show (applyBloomSensor { s with pixels := q }).pixels i j ≤ s.full_well
  unfold applyBloomSensor
  rw [if_pos hB]
  exact min_le_right _ _

/-- Claim C4, witness: a concrete successful dark-free exposure on a 1×1
sensor with empty bloom set and zero full well. -/
theorem accumulate_no_bloom_clip_witness :
    ((constSensor 1 1 0 0 noBloom (fun _ => 0)).bloom.count = 0 ∧
      (accumulate (constSensor 1 1 0 0 noBloom (fun _ => 0)) lens1 1 0 [] [] [] 0
        (rngConst 0)).1 = none) ∧
    ∀ i j, (accumulate (constSensor 1 1 0 0 noBloom (fun _ => 0)) lens1 1 0 [] [] [] 0
      (rngConst 0)).2.1.pixels i j ≤ (constSensor 1 1 0 0 noBloom (fun _ => 0)).full_well := by
  have hok : (accumulate (constSensor 1 1 0 0 noBloom (fun _ => 0)) lens1 1 0 [] [] [] 0
      (rngConst 0)).1 = none := by
    unfold accumulate
    rw [stageSrc_empty]
    dsimp only
    rw [stageBG_ok lens1 1 0 (constSensor 1 1 0 0 noBloom (fun _ => 0)) (rngConst 0)
      (by norm_num [lens1])]
    dsimp only
    rw [stageDark_ok 1 0
      { constSensor 1 1 0 0 noBloom (fun _ => 0) with
          pixels := fun i j => (constSensor 1 1 0 0 noBloom (fun _ => 0)).pixels i j +
            ((noiseMat (rngConst 0) : Fin 1 → Fin 1 → ℕ) i j : ℚ) }
      ⟨(rngConst 0).gen, (rngConst 0).idx + 1 * 1⟩
      (fun i j => by norm_num [darkLambda, constSensor, darkConvFactor])]
  exact ⟨⟨by decide, hok⟩,
    accumulate_no_bloom_clip _ lens1 1 0 [] [] [] 0 (rngConst 0) (by decide) hok⟩

/-- Claim C5: starting from a non-negative buffer (and a non-negative full
well), the buffer stays non-negative through the PSF, background, dark and
bloom stages of `accumulate`, whether or not the call raises. -/
theorem accumulate_pixels_nonneg {H W : ℕ} (s : Sensor H W) (lens : Lens) (t temp : ℚ)
    (xs ys fluxes : List ℚ) (bg : ℚ) (r : RNG)
    (hfw : 0 ≤ s.full_well) (hp : ∀ i j, 0 ≤ s.pixels i j) :
    ∀ i j, 0 ≤ (accumulate s lens t temp xs ys fluxes bg r).2.1.pixels i j := by
  unfold accumulate
  have h1p := stageSrc_nonneg lens t xs ys fluxes s r hp
  obtain ⟨q1, hq1⟩ := stageSrc_shape lens t xs ys fluxes s r
  rcases h1 : stageSrc lens t xs ys fluxes s r with ⟨e1, s1, r1⟩
  rw [h1] at h1p hq1
  cases e1 with
  | some e => exact h1p
  | none =>
    dsimp only
    have h2p := stageBG_nonneg lens t bg s1 r1 h1p
    obtain ⟨q2, hq2⟩ := stageBG_shape lens t bg s1 r1
    rcases h2 : stageBG lens t bg s1 r1 with ⟨e2, s2, r2⟩
    rw [h2] at h2p hq2
    cases e2 with
    | some e => exact h2p
    | none =>
      dsimp only
      have h3p := stageDark_nonneg t temp s2 r2 h2p
      obtain ⟨q3, hq3⟩ := stageDark_shape t temp s2 r2
      rcases h3 : stageDark t temp s2 r2 with ⟨e3, s3, r3⟩
      rw [h3] at h3p hq3
      cases e3 with
      | some e => exact h3p
      | none =>
        dsimp only
        refine applyBloomSensor_nonneg s3 ?_ h3p
        dsimp only at hq1 hq2 hq3
        rw [hq3, hq2, hq1]
        exact hfw

/-- Claim C5, witness: the invariant at a concrete 1×1 run. -/
theorem accumulate_pixels_nonneg_witness :
    (0 ≤ (constSensor 1 1 0 0 noBloom (fun _ => 0)).full_well ∧
      ∀ i j, 0 ≤ (constSensor 1 1 0 0 noBloom (fun _ => 0)).pixels i j) ∧
    ∀ i j, 0 ≤ (accumulate (constSensor 1 1 0 0 noBloom (fun _ => 0)) lens1 1 0 [] [] [] 0
      (rngConst 0)).2.1.pixels i j :=
  ⟨⟨by decide, by decide⟩,
   accumulate_pixels_nonneg _ lens1 1 0 [] [] [] 0 (rngConst 0) (by decide) (by decide)⟩

/-- Claim C6: `readout` returns exactly
`min(floor(pixels * gain) + bias, adc_limit)` computed on the post-noise
buffer; the digital image is integer-valued by construction and bounded by
`adc_limit` everywhere. -/
theorem readout_formula {H W : ℕ} (s : Sensor H W) (r : RNG) (h : 0 ≤ s.read_noise) :
    readout s r = (none,
      fun i j => min (⌊(s.pixels i j + ((noiseMat r : Fin H → Fin W → ℕ) i j : ℚ)) * s.gain⌋ +
        s.bias i j) s.adc_limit,
      { s with pixels := fun i j => s.pixels i j +
        ((noiseMat r : Fin H → Fin W → ℕ) i j : ℚ) },
      ⟨r.gen, r.idx + H * W⟩) ∧
    ∀ i j, (readout s r).2.1 i j ≤ s.adc_limit := by
  have hro := readout_ok s r h
  refine ⟨hro, ?_⟩
  intro i j
  rw [hro]
  exact min_le_right _ _

/-- Claim C6, witness. -/
theorem readout_formula_witness :
    0 ≤ (constSensor 1 1 0 0 noBloom (fun _ => 0)).read_noise ∧
    ∀ i j, (readout (constSensor 1 1 0 0 noBloom (fun _ => 0)) (rngConst 0)).2.1 i j ≤
      (constSensor 1 1 0 0 noBloom (fun _ => 0)).adc_limit :=
  ⟨by decide,
   (readout_formula (constSensor 1 1 0 0 noBloom (fun _ => 0)) (rngConst 0) (by decide)).2⟩

/-- Claim C7: `readout` changes the sensor only by adding the drawn
read-noise counts into `pixels` (all other fields survive unchanged, as the
record-update form shows), and a second `readout` without an intervening
`clear` adds its own noise on top, so read noise accumulates in the
buffer. -/
theorem readout_only_adds_noise {H W : ℕ} (s : Sensor H W) (r : RNG)
    (h : 0 ≤ s.read_noise) :
    (readout s r).1 = none ∧
    (readout s r).2.2.1 = { s with pixels := fun i j => s.pixels i j +
      ((noiseMat r : Fin H → Fin W → ℕ) i j : ℚ) } ∧
    ((readout s r).2.2.1).read_noise = s.read_noise ∧
    ((readout s r).2.2.1).gain = s.gain ∧
    ((readout s r).2.2.1).bias = s.bias ∧
    ((readout s r).2.2.1).full_well = s.full_well ∧
    ((readout s r).2.2.1).bloom = s.bloom ∧
    (readout (readout s r).2.2.1 (readout s r).2.2.2).2.2.1.pixels =
      fun i j => s.pixels i j + ((noiseMat r : Fin H → Fin W → ℕ) i j : ℚ) +
        ((noiseMat (⟨r.gen, r.idx + H * W⟩ : RNG) : Fin H → Fin W → ℕ) i j : ℚ) := by
  have h1 := readout_ok s r h
  refine ⟨by rw [h1], by rw [h1], by rw [h1], by rw [h1], by rw [h1], by rw [h1],
    by rw [h1], ?_⟩
  rw [h1]
  dsimp only
  rw [readout_ok
    { s with pixels := fun i j => s.pixels i j + ((noiseMat r : Fin H → Fin W → ℕ) i j : ℚ) }
    (⟨r.gen, r.idx + H * W⟩ : RNG) h]

/-- Claim C7, witness. -/
theorem readout_only_adds_noise_witness :
    0 ≤ (constSensor 1 1 0 0 noBloom (fun _ => 0)).read_noise ∧
    (readout (constSensor 1 1 0 0 noBloom (fun _ => 0)) (rngConst 0)).1 = none :=
  ⟨by decide,
   (readout_only_adds_noise (constSensor 1 1 0 0 noBloom (fun _ => 0)) (rngConst 0)
     (by decide)).1⟩

/-- Claim C8: `clear → accumulate → readout` is reproducible: two runs whose
generators agree on every draw the first run consumes (in particular two
runs from the same seed) produce bitwise-identical error status and digital
image. -/
theorem pipeline_deterministic {H W : ℕ} (s : Sensor H W) (lens : Lens) (t temp : ℚ)
    (xs ys fluxes : List ℚ) (bg : ℚ) (g1 g2 : ℕ → ℕ)
    (hag : agreeBelow g1 g2 ((pipeline s lens t temp xs ys fluxes bg ⟨g1, 0⟩).2.2.2.idx)) :
    (pipeline s lens t temp xs ys fluxes bg ⟨g2, 0⟩).1 =
      (pipeline s lens t temp xs ys fluxes bg ⟨g1, 0⟩).1 ∧
    (pipeline s lens t temp xs ys fluxes bg ⟨g2, 0⟩).2.1 =
      (pipeline s lens t temp xs ys fluxes bg ⟨g1, 0⟩).2.1 := by
  unfold pipeline at hag ⊢
  have hacc := accumulate_rng (clear s) lens t temp xs ys fluxes bg ⟨g1, 0⟩
  rcases h1 : accumulate (clear s) lens t temp xs ys fluxes bg ⟨g1, 0⟩ with ⟨e1, s1, rg1, ri1⟩
  rw [h1] at hag hacc
  have hg1 : g1 = rg1 := hacc.2.symm
  subst hg1
  cases e1 with
  | some e =>
    have hd1 := accumulate_det (clear s) lens t temp xs ys fluxes bg g1 g2 0
      (by rw [h1]; exact hag)
    rw [h1] at hd1
    rw [hd1]
    exact ⟨rfl, rfl⟩
  | none =>
    dsimp only at hag ⊢
    have hro := readout_rng s1 ⟨g1, ri1⟩
    have hd1 := accumulate_det (clear s) lens t temp xs ys fluxes bg g1 g2 0
      (by rw [h1]; exact fun i hi => hag i (lt_of_lt_of_le hi hro.1))
    rw [h1] at hd1
    rw [hd1]
    dsimp only
    have hd2 := readout_det s1 g1 g2 ri1 hag
    rw [hd2]
    exact ⟨rfl, rfl⟩

/-- Claim C8, witness: at a concrete 1×1 exposure with two (equal)
generators the images coincide. -/
theorem pipeline_deterministic_witness :
    agreeBelow (fun _ => 0) (fun _ => 0)
      ((pipeline (constSensor 1 1 0 0 noBloom (fun _ => 0)) lens1 1 0 [] [] [] 0
        ⟨fun _ => 0, 0⟩).2.2.2.idx) ∧
    (pipeline (constSensor 1 1 0 0 noBloom (fun _ => 0)) lens1 1 0 [] [] [] 0
        ⟨fun _ => 0, 0⟩).2.1 =
      (pipeline (constSensor 1 1 0 0 noBloom (fun _ => 0)) lens1 1 0 [] [] [] 0
        ⟨fun _ => 0, 0⟩).2.1 :=
  ⟨fun i _ => rfl,
   (pipeline_deterministic (constSensor 1 1 0 0 noBloom (fun _ => 0)) lens1 1 0 [] [] [] 0
     (fun _ => 0) (fun _ => 0) (fun i _ => rfl)).2⟩

/-- Claim C9: one symmetric-bloom iteration on an interior pixel holding
`full_well + 4k` (all others zero, `full_well ≥ 4k`) caps the pixel at
`full_well` and deposits exactly `k` electrons in each of its four
orthogonal neighbours; every further iteration keeps every pixel at or
below `full_well`. -/
theorem bloom_symmetric_spike {H W : ℕ} (r c k : ℕ) (fw : ℚ)
    (hr1 : 1 ≤ r) (hr2 : r + 2 ≤ H) (hc1 : 1 ≤ c) (hc2 : c + 2 ≤ W)
    (hk : 1 ≤ k) (hfw : 4 * (k : ℚ) ≤ fw) :
    bloomStep bloomAll fw (spikeMat H W r c fw k) = (fun i j =>
      if i.val = r ∧ j.val = c then fw
      else if (i.val = r ∧ (j.val = c + 1 ∨ j.val + 1 = c)) ∨
              ((i.val = r + 1 ∨ i.val + 1 = r) ∧ j.val = c) then (k : ℚ)
      else 0) ∧
    ∀ m : ℕ, 1 ≤ m → ∀ i j,
      (bloomStep bloomAll fw)^[m] (spikeMat H W r c fw k) i j ≤ fw := by
  have hstep := bloomStep_spike r c k fw hr1 hr2 hc1 hc2 hfw
  refine ⟨hstep, ?_⟩
  intro m hm i j
  have hk0 : (0 : ℚ) ≤ (k : ℚ) := by positivity
  have hkfw : (k : ℚ) ≤ fw := by linarith
  have hfw0 : (0 : ℚ) ≤ fw := by linarith
  have hle : ∀ i j, bloomStep bloomAll fw (spikeMat H W r c fw k) i j ≤ fw := by
    intro i j
    rw [hstep]
    dsimp only
    split
    · exact le_refl fw
    · split
      · exact hkfw
      · exact hfw0
  have hfix : excess fw (bloomStep bloomAll fw (spikeMat H W r c fw k)) = 0 :=
    excess_eq_zero_of_le fw _ hle
  obtain ⟨n, rfl⟩ : ∃ n, m = n + 1 := ⟨m - 1, by omega⟩
  rw [Function.iterate_succ_apply, bloomStep_iterate_fix bloomAll fw _ hfix n]
  exact hle i j

/-- Claim C9, witness: the 3×3 grid with the spike at the centre, `k = 1`,
`full_well = 4`. -/
theorem bloom_symmetric_spike_witness :
    (1 ≤ 1 ∧ 1 + 2 ≤ 3 ∧ 1 ≤ 1 ∧ 1 + 2 ≤ 3 ∧ 1 ≤ 1 ∧ 4 * ((1 : ℕ) : ℚ) ≤ 4) ∧
    ∀ m : ℕ, 1 ≤ m → ∀ i j,
      (bloomStep bloomAll (4 : ℚ))^[m] (spikeMat 3 3 1 1 4 1) i j ≤ 4 :=
  ⟨⟨le_refl 1, by norm_num, le_refl 1, by norm_num, le_refl 1, by norm_num⟩,
   (bloom_symmetric_spike 1 1 1 4 (le_refl 1) (by norm_num) (le_refl 1) (by norm_num)
     (le_refl 1) (by norm_num)).2⟩

/-- Claim C10: `np.asanyarray([b]).ndim == 1` and `len == 1`, so the bias
validation falls through the no-op `pass` branch into the
`len == width_px` test and raises whenever `width_px ≠ 1`, even though the
numerically equivalent scalar bias is accepted and broadcast. -/
theorem bias_length_one (b : ℤ) (hh ww : ℕ) (hW : ww ≠ 1) :
    biasInit hh ww (.oneD [b]) = .error () ∧
    biasInit hh ww (.scalar b) = .ok (fun _ _ => b) := by
  constructor
  · simp only [biasInit]
    rw [if_neg]
    intro hcon
    rw [List.length_singleton] at hcon
    exact hW hcon.symm
  · rfl

/-- Claim C10, witness: a length-one bias vector on a 1×2 sensor raises,
while the scalar is accepted. -/
theorem bias_length_one_witness :
    ((2 : ℕ) ≠ 1) ∧
    (biasInit 1 2 (.oneD [7]) = .error () ∧
      biasInit 1 2 (.scalar 7) = .ok (fun _ _ => 7)) :=
  ⟨by decide, bias_length_one 7 1 2 (by decide)⟩

end Claims

end STLib
